import Mathlib

/-!
Verification of the query-construction and URL-serialization core of the
`olap-client-py` repository (files `olap_client/models.py`,
`olap_client/query.py`, `olap_client/tesseract/query.py`,
`olap_client/tesseract/schema.py`), via a shallow embedding.

Modelling conventions:
* Python dictionaries are association lists (`List (key × value)`) with
  insertion order and in-place update on existing keys, matching CPython
  dict semantics.
* Python sets of strings / model objects are duplicate-free lists in
  insertion order; `set.add` / `set.update` insert elements that are not
  already present at the end.  (CPython iterates sets in hash order; any
  claim that depends on a particular set iteration order is flagged in the
  corresponding theorem's documentation.)
* A Python function that can raise is embedded with result type
  `Except String _` (the string is the exception rendered as text) or
  `Option _` for `StopIteration` from a bare `next(...)` lookup.
* `dataclasses.field(init=False)` members, which are unset until assigned,
  are `Option`-valued with default `none`; reading them while unset raises
  `AttributeError` in Python and maps to an `Except.error`.
-/

/-- Lexicographic comparison of char lists by code point, the order CPython
uses to compare `str` values (shorter prefixes sort first). -/
def charListLe : List Char → List Char → Bool
  | [], _ => true
  | _ :: _, [] => false
  | a :: as, b :: bs =>
    if a.toNat < b.toNat then true
    else if b.toNat < a.toNat then false
    else charListLe as bs

/-- String comparison in CPython's `sorted` order (code-point lexicographic). -/
def strLe (a b : String) : Bool := charListLe a.data b.data

/-- Propositional form of `strLe`, used as the sorting relation. -/
def strLeP (a b : String) : Prop := strLe a b = true

instance : DecidableRel strLeP := fun a b => inferInstanceAs (Decidable (strLe a b = true))

theorem charListLe_total (as bs : List Char) :
    charListLe as bs = true ∨ charListLe bs as = true := by
  induction as generalizing bs with
  | nil => exact Or.inl rfl
  | cons a as ih =>
    cases bs with
    | nil => exact Or.inr rfl
    | cons b bs =>
      by_cases h1 : a.toNat < b.toNat
      · left; simp [charListLe, h1]
      · by_cases h2 : b.toNat < a.toNat
        · right; simp [charListLe, h2]
        · rcases ih bs with h | h
          · left; simpa [charListLe, h1, h2] using h
          · right; simpa [charListLe, h1, h2] using h

theorem char_eq_of_toNat_eq {a b : Char} (h : a.toNat = b.toNat) : a = b :=
  Char.eq_of_val_eq (UInt32.ext h)

theorem charListLe_antisymm {as bs : List Char} (h1 : charListLe as bs = true)
    (h2 : charListLe bs as = true) : as = bs := by
  induction as generalizing bs with
  | nil =>
    cases bs with
    | nil => rfl
    | cons b bs => simp [charListLe] at h2
  | cons a as ih =>
    cases bs with
    | nil => simp [charListLe] at h1
    | cons b bs =>
      by_cases hab : a.toNat < b.toNat
      · exfalso
        have : ¬ b.toNat < a.toNat := Nat.lt_asymm hab
        simp [charListLe, this, Nat.lt_irrefl, Nat.ne_of_lt hab] at h2
        omega
      · by_cases hba : b.toNat < a.toNat
        · exfalso
          simp [charListLe, hab, hba] at h1
        · have hv : a = b := char_eq_of_toNat_eq (Nat.le_antisymm (Nat.not_lt.mp hba) (Nat.not_lt.mp hab))
          simp [charListLe, hab, hba] at h1 h2
          rw [hv, ih h1 h2]

theorem charListLe_trans {as bs cs : List Char} (h1 : charListLe as bs = true)
    (h2 : charListLe bs cs = true) : charListLe as cs = true := by
  induction as generalizing bs cs with
  | nil => rfl
  | cons a as ih =>
    cases bs with
    | nil => simp [charListLe] at h1
    | cons b bs =>
      cases cs with
      | nil => simp [charListLe] at h2
      | cons c cs =>
        by_cases hab : a.toNat < b.toNat <;> by_cases hbc : b.toNat < c.toNat
        · simp [charListLe, Nat.lt_trans hab hbc]
        · have hcb : c.toNat ≤ b.toNat := Nat.not_lt.mp hbc
          by_cases hcb' : c.toNat < b.toNat
          · simp [charListLe, hbc, hcb'] at h2
          · have : b.toNat = c.toNat := Nat.le_antisymm (Nat.not_lt.mp hcb') hcb
            simp [charListLe, this ▸ hab]
        · have hba : b.toNat ≤ a.toNat := Nat.not_lt.mp hab
          by_cases hba' : b.toNat < a.toNat
          · simp [charListLe, hab, hba'] at h1
          · have : a.toNat = b.toNat := Nat.le_antisymm (Nat.not_lt.mp hba') hba
            simp [charListLe, this ▸ hbc]
        · have hba' : ¬ b.toNat < a.toNat := by
            simp [charListLe, hab] at h1; omega
          have hcb' : ¬ c.toNat < b.toNat := by
            simp [charListLe, hbc] at h2; omega
          have hac : ¬ a.toNat < c.toNat := by omega
          have hca : ¬ c.toNat < a.toNat := by omega
          simp [charListLe, hab, hba', hbc, hcb', hac, hca] at h1 h2 ⊢
          exact ih h1 h2

instance : IsTotal String strLeP := ⟨fun a b => charListLe_total a.data b.data⟩

instance : IsTrans String strLeP := ⟨fun _ _ _ h1 h2 => charListLe_trans h1 h2⟩

instance : IsAntisymm String strLeP :=
  ⟨fun a b h1 h2 => by
    cases a; cases b
    exact congrArg String.mk (charListLe_antisymm h1 h2)⟩

/-- The `sorted(...)` call applied by `build_logiclayer_url` to every list- or
set-valued parameter before comma-joining it. -/
def sortStrings (l : List String) : List String := List.insertionSort strLeP l

theorem sortStrings_eq_of_perm {l1 l2 : List String} (h : l1.Perm l2) :
    sortStrings l1 = sortStrings l2 :=
  List.eq_of_perm_of_sorted
    (((List.perm_insertionSort strLeP l1).trans h).trans (List.perm_insertionSort strLeP l2).symm)
    (List.sorted_insertionSort strLeP l1) (List.sorted_insertionSort strLeP l2)

/-- Measure from `olap_client/models.py` (`class Measure(BaseModel)`).  The
free-form `aggregator_meta` mapping is carried so that pydantic's
whole-record equality, which Python set membership of measures uses, is
mirrored by structural equality.  (String-keyed annotation maps that no
claim mentions are left out of every schema record.) -/
structure Measure where
  aggregator_name : String
  aggregator_meta : List (String × String) := []
  name : String
  deriving DecidableEq

/-- Property from `olap_client/models.py` merged with its Tesseract subclass
`TesseractProperty` (`olap_client/tesseract/schema.py`), which adds the
optional `caption_set` and `unique_name` fields. -/
structure Property where
  dimension : String
  hierarchy : String
  level : String
  name : String
  caption_set : Option String := none
  unique_name : Option String := none
  deriving DecidableEq

/-- Level from `olap_client/models.py`.  The optional `unique_name` field is
Modelled from the spec: §3 gives Level an optional "unique name", the older
`olap_client/cube.py` Level record carries `unique_name: Optional[str]`, and
`get_unique_name` in `olap_client/tesseract/query.py` reads `item.unique_name`
from levels, but the `TesseractLevel` subclass in
`olap_client/tesseract/schema.py` does not declare the field. -/
structure Level where
  depth : Nat
  dimension : String
  hierarchy : String
  name : String
  properties : List Property := []
  unique_name : Option String := none
  deriving DecidableEq

/-- Hierarchy from `olap_client/models.py`. -/
structure Hierarchy where
  dimension : String
  levels : List Level := []
  name : String
  deriving DecidableEq

/-- Dimension from `olap_client/models.py` (the `dimension_type` tag and
`default_hierarchy` play no part in any claim and are omitted). -/
structure Dimension where
  hierarchies : List Hierarchy := []
  name : String
  deriving DecidableEq

/-- Cube from `olap_client/models.py`. -/
structure Cube where
  dimensions : List Dimension := []
  measures : List Measure := []
  name : String
  deriving DecidableEq

/-- The `Cube.levels` generator: all levels, iterating dimensions in order,
then hierarchies in order, then levels in order. -/
def Cube.levels (c : Cube) : List Level :=
  c.dimensions.flatMap fun d => d.hierarchies.flatMap fun h => h.levels

/-- The `Cube.properties` generator: all properties in tree order. -/
def Cube.props (c : Cube) : List Property :=
  c.dimensions.flatMap fun d => d.hierarchies.flatMap fun h =>
    h.levels.flatMap fun l => l.properties

/-- `Level.matches` from `olap_client/models.py`: compares the query string
with `self.name` only. -/
def Level.matches (l : Level) (s : String) : Bool := l.name == s

/-- `Property.matches` from `olap_client/models.py`: compares the query
string with `self.name` only. -/
def Property.matches (p : Property) (s : String) : Bool := p.name == s

/-- `Cube.get_level`: first level in tree order whose `matches` predicate
accepts the string; `none` models the `StopIteration` escaping from the
bare `next(...)` call. -/
def Cube.get_level (c : Cube) (s : String) : Option Level :=
  c.levels.find? (fun l => l.matches s)

/-- `Cube.get_property`: first property in tree order accepted by `matches`. -/
def Cube.get_property (c : Cube) (s : String) : Option Property :=
  c.props.find? (fun p => p.matches s)

/-- `Cube.get_measure`: first measure whose `name` equals the string. -/
def Cube.get_measure (c : Cube) (s : String) : Option Measure :=
  c.measures.find? (fun m => m.name == s)

/-- Comparison enum from `olap_client/query.py`; `code` is the string value
each member formats as (str-mixin enums format as their value). -/
inductive Comparison
  | gt | gte | lt | lte | eq | neq
  deriving DecidableEq

def Comparison.code : Comparison → String
  | .gt => "gt"
  | .gte => "gte"
  | .lt => "lt"
  | .lte => "lte"
  | .eq => "eq"
  | .neq => "neq"

/-- The value slot of a `topk` calculation, `Union[str, Measure]` in
`TopkCalculation.__init__`. -/
inductive TopkValue
  | measure (m : Measure)
  | raw (s : String)
  deriving DecidableEq

/-- Calculation records as built by the `GrowthCalculation`, `RcaCalculation`
and `TopkCalculation` constructors of `olap_client/tesseract/query.py`
(kind plus the typed params those constructors store); `other` covers any
calculation of a kind the logiclayer serializer does not handle. -/
inductive Calculation
  | growth (period : Level) (value : Measure)
  | rca (location : Level) (category : Level) (value : Measure)
  | topk (amount : Int) (category : Level) (value : TopkValue) (order : String)
  | other (kind : String)
  deriving DecidableEq

def Calculation.kind : Calculation → String
  | .growth _ _ => "growth"
  | .rca _ _ _ => "rca"
  | .topk _ _ _ _ => "topk"
  | .other k => k

/-- Cut dataclass from `olap_client/query.py`; `level` is a
`field(init=False)` slot, unset (`none`) on a fresh default instance. -/
structure Cut where
  level : Option Level := none
  members : List String := []
  is_exclusive : Bool := false
  is_for_match : Bool := false
  deriving DecidableEq

/-- Drilldown dataclass from `olap_client/query.py`. -/
structure Drilldown where
  level : Option Level := none
  properties : List Property := []
  caption : Option Property := none
  deriving DecidableEq

/-- The `value` slot of a Filter: `Union[str, Measure]`. -/
inductive FilterValue
  | str (s : String)
  | measure (m : Measure)
  deriving DecidableEq

/-- Filter dataclass from `olap_client/query.py` (named `QFilter` here only
because Mathlib already owns the name `Filter`); `value` and `constraint1`
are `field(init=False)` slots, unset on a fresh default instance. -/
structure QFilter where
  value : Option FilterValue := none
  constraint1 : Option (Comparison × Int) := none
  joint : Option String := none
  constraint2 : Option (Comparison × Int) := none
  deriving DecidableEq

/-- Query state from `olap_client/query.py` (with the TesseractQuery
subclass adding no new state).  The `cuts`, `drilldowns`, `filters` and
`options` defaultdicts are association lists; `measures` is a Python set
modelled as a duplicate-free insertion-ordered list. -/
structure Query where
  calculations : List Calculation := []
  cube : Option Cube
  cuts : List (String × Cut) := []
  drilldowns : List (String × Drilldown) := []
  filters : List (String × QFilter) := []
  locale : Option String := none
  measures : List Measure := []
  options : List (String × Bool) := []
  pagination : Int × Int := (0, 0)
  sorting : Option String × String := (none, "desc")
  time : Option String × Option String := (none, none)
  extension : String := "jsonrecords"
  deriving DecidableEq

/-- `Cube.new_query` / `Query.__init__`. -/
def Cube.new_query (c : Cube) : Query := { cube := some c }

/-- First-match lookup in an association list (Python `dict.get` /
`dict.__getitem__` semantics; keys are unique in every dict the code
builds, so first-match equals the dict entry). -/
def lookupKV {α : Type} : List (String × α) → String → Option α
  | [], _ => none
  | (k', v) :: rest, k => if k' = k then some v else lookupKV rest k

/-- Update-or-append on an association list: the defaultdict pattern
`d[k] = f(d[k])` where a missing key is first filled with the default.
Updating an existing key keeps its position (CPython dict semantics);
a new key is appended at the end. -/
def updateKV {α : Type} : List (String × α) → String → (α → α) → α → List (String × α)
  | [], k, f, dflt => [(k, f dflt)]
  | (k', v) :: rest, k, f, dflt =>
    if k' = k then (k', f v) :: rest else (k', v) :: updateKV rest k f dflt

/-- Python set insertion for strings (`set.add` on the model of sets as
duplicate-free lists in insertion order). -/
def insertStr (l : List String) (s : String) : List String :=
  if s ∈ l then l else l ++ [s]

/-- `set.update(members)`: left-fold of insertions. -/
def unionMembers (cur : List String) (members : List String) : List String :=
  members.foldl insertStr cur

/-- `Query.add_calculation`: appends to the calculation list, never
deduplicating. -/
def Query.add_calculation (q : Query) (cal : Calculation) : Query :=
  { q with calculations := q.calculations ++ [cal] }

/-- Python set insertion for measures (`self.measures.add(measure)`). -/
def insertMeasure (l : List Measure) (m : Measure) : List Measure :=
  if m ∈ l then l else l ++ [m]

/-- `Query.add_measure`: resolves the name through `Cube.get_measure` and
adds the measure to the set; `none` when the cube is unset (Python
`AttributeError`) or the lookup raises `StopIteration`. -/
def Query.add_measure (q : Query) (measure_name : String) : Option Query := do
  let c ← q.cube
  let m ← c.get_measure measure_name
  some { q with measures := insertMeasure q.measures m }

/-- The mutation `set_cut` applies to the (possibly freshly default-created)
Cut slot: rebind the level, apply only the flags that were passed, and
union in the members (the `len(members) > 0` guard skips the no-op update
on an empty list). -/
def cut_touch (lvl : Level) (members : List String)
    (is_exclusive is_for_match : Option Bool) (cut : Cut) : Cut :=
  let cut := { cut with level := some lvl }
  let cut := match is_exclusive with
    | some b => { cut with is_exclusive := b }
    | none => cut
  let cut := match is_for_match with
    | some b => { cut with is_for_match := b }
    | none => cut
  if members.length > 0 then { cut with members := unionMembers cut.members members }
  else cut

/-- `Query.set_cut`: resolves the level, fetches (or default-creates) the
Cut slot keyed by the level's dimension, rebinds the slot's level, applies
only the boolean flags that were passed, and unions in the members. -/
def Query.set_cut (q : Query) (level_name : String) (members : List String)
    (is_exclusive : Option Bool := none) (is_for_match : Option Bool := none) :
    Option Query := do
  let c ← q.cube
  let lvl ← c.get_level level_name
  let newCuts := updateKV q.cuts lvl.dimension (cut_touch lvl members is_exclusive is_for_match) {}
  some { q with cuts := newCuts }

/-- `Query.set_drilldown`: resolves the level and rebinds the level of the
Drilldown slot keyed by the level's dimension (slot default-created by the
defaultdict when absent, other slot fields untouched). -/
def Query.set_drilldown (q : Query) (level_name : String) : Option Query := do
  let c ← q.cube
  let lvl ← c.get_level level_name
  let dd := updateKV q.drilldowns lvl.dimension (fun drill => { drill with level := some lvl }) {}
  some { q with drilldowns := dd }

/-- `Query.set_caption`: resolves the property and stores it as the caption
of the Drilldown slot keyed by the property's dimension. -/
def Query.set_caption (q : Query) (property_name : String) : Option Query := do
  let c ← q.cube
  let propty ← c.get_property property_name
  let dd := updateKV q.drilldowns propty.dimension (fun drill => { drill with caption := some propty }) {}
  some { q with drilldowns := dd }

/-- Python set insertion for properties (`drill.properties.add(propty)`). -/
def insertProp (l : List Property) (p : Property) : List Property :=
  if p ∈ l then l else l ++ [p]

/-- `Query.set_property`: resolves the property and adds it to the property
set of the Drilldown slot keyed by the property's dimension. -/
def Query.set_property (q : Query) (property_name : String) : Option Query := do
  let c ← q.cube
  let propty ← c.get_property property_name
  let dd := updateKV q.drilldowns propty.dimension (fun drill => { drill with properties := insertProp drill.properties propty }) {}
  some { q with drilldowns := dd }

/-- `Query.set_extension`. -/
def Query.set_extension (q : Query) (ext : String) : Query :=
  { q with extension := ext }

/-- `Query.set_filter`: binds the filter value to the cube measure whose
name equals `value_ref` when one exists (keying the filter dict by the
measure's name), otherwise stores the raw string; always overwrites the
constraints and the joint. -/
def Query.set_filter (q : Query) (value_ref : String)
    (condition1 : Comparison × Int) (joint : Option String := none)
    (condition2 : Option (Comparison × Int) := none) : Option Query := do
  let c ← q.cube
  let measure := c.measures.find? (fun m => m.name == value_ref)
  let key := match measure with
    | some m => m.name
    | none => value_ref
  let value := match measure with
    | some m => FilterValue.measure m
    | none => FilterValue.str value_ref
  let touch := fun (filtr : QFilter) =>
    { filtr with value := some value, constraint1 := some condition1,
                 joint := joint, constraint2 := condition2 }
  some { q with filters := updateKV q.filters key touch {} }

/-- `Query.set_locale`. -/
def Query.set_locale (q : Query) (locale : String) : Query :=
  { q with locale := some locale }

/-- `Query.set_option`: writes `bool(value)` into the options dict. -/
def Query.set_option (q : Query) (prop : String) (value : Bool) : Query :=
  { q with options := updateKV q.options prop (fun _ => value) false }

/-- `Query.set_pagination`. -/
def Query.set_pagination (q : Query) (page : Int) (offset : Int := 0) : Query :=
  { q with pagination := (page, offset) }

/-- `Query.set_sorting`: resolves the sort key against the cube's measures. -/
def Query.set_sorting (q : Query) (sort_key : String) (order : String := "desc") :
    Option Query := do
  let c ← q.cube
  let m ← c.get_measure sort_key
  some { q with sorting := (some m.name, order) }

/-- `Query.set_time`: stores the pair unless either component is `None`, in
which case it stores `(None, None)`. -/
def Query.set_time (q : Query) (precision : Option String) (value : Option String) : Query :=
  { q with time := if precision ≠ none ∧ value ≠ none then (precision, value) else (none, none) }

/-- `TesseractQuery.raise_on_invalid`: the base checks of
`Query.raise_on_invalid` (cube bound, at least one drilldown, at least one
measure) followed by the filter scan; an `Except.error` is the raised
exception.  `check_filters` walks the filter dict in order exactly as the
`for` loop does, raising `InvalidQueryError` at the first filter whose
value is a measure outside the query's measure set (reading an unset
`value` slot would raise `AttributeError` instead). -/
def check_filters (measures : List Measure) : List (String × QFilter) → Except String Unit
  | [] => .ok ()
  | (_, filtr) :: rest =>
    match filtr.value with
    | none => .error "AttributeError: value is not set on this Filter"
    | some (.str _) => check_filters measures rest
    | some (.measure m) =>
      if m ∈ measures then check_filters measures rest
      else .error "InvalidQueryError: Measure must be in measures to use in a filter."

def Query.raise_on_invalid (q : Query) : Except String Query :=
  match q.cube with
  | none => .error "InvalidQueryError: A target Cube has not been set for this query"
  | some _ =>
    if q.drilldowns.length = 0 then
      .error "InvalidQueryError: There are no drilldowns in this query"
    else if q.measures.length = 0 then
      .error "InvalidQueryError: There are no measures in this query"
    else
      match check_filters q.measures q.filters with
      | .error e => .error e
      | .ok _ => .ok q

/-- Value slot of the `params` dict inside `build_logiclayer_url`: a string
or a list/set of strings (collections are sorted and comma-joined at the
end of the function, plain strings pass through). -/
inductive PVal
  | s (v : String)
  | l (v : List String)
  deriving DecidableEq

/-- Assignment `params[k] = v` on the params dict: in-place update when the
key exists, append otherwise. -/
def dictSet : List (String × PVal) → String → PVal → List (String × PVal)
  | [], k, v => [(k, v)]
  | (k', v') :: rest, k, v =>
    if k' = k then (k', v) :: rest else (k', v') :: dictSet rest k v

/-- The statement `params[k].extend(xs)` / `params[k].append(x)`: mutates
the list stored under `k` in place.  A missing key raises `KeyError`; a
string value raises `AttributeError` (strings have no `append`). -/
def dictExtend : List (String × PVal) → String → List String → Except String (List (String × PVal))
  | [], _, _ => .error "KeyError"
  | (k', v') :: rest, k, xs =>
    if k' = k then
      match v' with
      | .l cur => .ok ((k', .l (cur ++ xs)) :: rest)
      | .s _ => .error "AttributeError: str object has no attribute append"
    else
      (dictExtend rest k xs).map (fun ps => (k', v') :: ps)

/-- `get_unique_name` from `olap_client/tesseract/query.py` applied to a
level: `item.unique_name or item.name` (a `None` or empty unique name falls
back to `name`). -/
def get_unique_name_level (l : Level) : String :=
  match l.unique_name with
  | some u => if u = "" then l.name else u
  | none => l.name

/-- `get_unique_name` applied to a property. -/
def get_unique_name_prop (p : Property) : String :=
  match p.unique_name with
  | some u => if u = "" then p.name else u
  | none => p.name

/-- `TesseractFilter.value_name`: the raw string, or the measure's name;
reading an unset `value` slot raises `AttributeError`. -/
def QFilter.value_name (f : QFilter) : Except String String :=
  match f.value with
  | none => .error "AttributeError: value is not set on this Filter"
  | some (.str s) => .ok s
  | some (.measure m) => .ok m.name

/-- Python `"{:d}".format(n)` for an int. -/
def intFmt (n : Int) : String := toString n

/-- `TesseractFilter.serialize`: formats
`"<value-name>.<op1>.<n1>"` and, when `joint is not None`, reads
`constraint2[0]` — which raises `TypeError` when `constraint2` is `None` —
and appends `".<joint>.<op2>.<n2>"` unless that first component is `None`. -/
def QFilter.serialize (f : QFilter) : Except String String :=
  match f.value_name with
  | .error e => .error e
  | .ok vn =>
    match f.constraint1 with
    | none => .error "AttributeError: constraint1 is not set on this Filter"
    | some c1 =>
      match f.joint with
      | none => .ok (vn ++ "." ++ c1.1.code ++ "." ++ intFmt c1.2)
      | some j =>
        match f.constraint2 with
        | none => .error "TypeError: NoneType object is not subscriptable"
        | some c2 =>
          .ok (vn ++ "." ++ c1.1.code ++ "." ++ intFmt c1.2 ++ "." ++ j ++ "." ++
            c2.1.code ++ "." ++ intFmt c2.2)

/-- The `set(item.name for item in query.measures)` expression: name set in
first-mention order (a Python set; the serializer sorts it later). -/
def measure_names (measures : List Measure) : List String :=
  (measures.map Measure.name).foldl insertStr []

/-- The drilldown loop of `build_logiclayer_url`: walking the drilldown
dict in order, append each slot level's unique name to the `drilldowns`
list and every slot property's unique name to the `properties` list.  (The
loop body mutates `params["drilldowns"]` / `params["properties"]` in
place; both keys are bound to the initial lists and no other statement
touches them before this loop, so the two accumulated lists are built
standalone here and placed in the dict at its construction just below.)
Reading the `level` slot of a never-drilled slot (created empty by
`set_caption` / `set_property`) raises `AttributeError`. -/
def drill_step (acc : List String × List String) (kv : String × Drilldown) :
    Except String (List String × List String) :=
  match kv.2.level with
  | none => .error "AttributeError: level is not set on this Drilldown"
  | some lvl => .ok (acc.1 ++ [get_unique_name_level lvl],
                     acc.2 ++ kv.2.properties.map get_unique_name_prop)

def drill_lists (slots : List (String × Drilldown)) : Except String (List String × List String) :=
  slots.foldlM drill_step ([], [])

/-- One iteration of the cut loop: bind the comma-join of the member set
(in iteration order, NOT sorted — the joined value is already a plain
string when the final sorting pass runs) to the level's unique name, and
append that name to the `exclude` list when the cut is exclusive. -/
def cut_step (ps : List (String × PVal)) (kv : String × Cut) : Except String (List (String × PVal)) :=
  match kv.2.level with
  | none => .error "AttributeError: level is not set on this Cut"
  | some lvl =>
    let level_name := get_unique_name_level lvl
    let ps := dictSet ps level_name (.s (String.intercalate "," kv.2.members))
    if kv.2.is_exclusive then dictExtend ps "exclude" [level_name] else .ok ps

/-- The `"{period},{value}"` format of the `growth` output parameter. -/
def growth_fmt (period : Level) (value : Measure) : String :=
  get_unique_name_level period ++ "," ++ value.name

/-- The `"{location},{category},{value}"` format of the `rca` output
parameter. -/
def rca_fmt (location category : Level) (value : Measure) : String :=
  get_unique_name_level location ++ "," ++ get_unique_name_level category ++ "," ++ value.name

/-- The `"{amount:d},{category},{value},{order}"` format of the `top` output
parameter. -/
def top_fmt (amount : Int) (category : Level) (value_name order : String) : String :=
  intFmt amount ++ "," ++ get_unique_name_level category ++ "," ++ value_name ++ "," ++ order

/-- One iteration of the calculation loop: `growth`, `rca` and `topk`
calculations overwrite their output key; a `topk` whose value slot holds a
raw string raises `AttributeError` when `.name` is read; other kinds are
ignored. -/
def calc_step (ps : List (String × PVal)) : Calculation → Except String (List (String × PVal))
  | .growth period value => .ok (dictSet ps "growth" (.s (growth_fmt period value)))
  | .rca location category value => .ok (dictSet ps "rca" (.s (rca_fmt location category value)))
  | .topk amount category (.measure m) order =>
    .ok (dictSet ps "top" (.s (top_fmt amount category m.name order)))
  | .topk _ _ (.raw _) _ => .error "AttributeError: str object has no attribute name"
  | .other _ => .ok ps

/-- The four option checks at the end of `build_logiclayer_url`: each of
`debug`, `exclude_default_members`, `parents`, `sparse` is emitted with the
literal string value `"true"` exactly when `query.options.get(o) is True`. -/
def apply_options (ps : List (String × PVal)) (options : List (String × Bool)) :
    List (String × PVal) :=
  let ps := if lookupKV options "debug" = some true then dictSet ps "debug" (.s "true") else ps
  let ps := if lookupKV options "exclude_default_members" = some true then
      dictSet ps "exclude_default_members" (.s "true") else ps
  let ps := if lookupKV options "parents" = some true then dictSet ps "parents" (.s "true") else ps
  if lookupKV options "sparse" = some true then dictSet ps "sparse" (.s "true") else ps

/-- The initial params dict of `build_logiclayer_url`, with the two lists
accumulated by the drilldown loop and the serialized filter list already in
place (see `drill_lists`; the `filters` key is (re)bound to the serialized
list, which for an empty filter dict equals the initial empty list). -/
def base_ps (c : Cube) (measures : List Measure) (dl : List String × List String)
    (fl : List String) : List (String × PVal) :=
  [("cube", .s c.name),
   ("measures", .l (measure_names measures)),
   ("drilldowns", .l dl.1),
   ("properties", .l dl.2),
   ("filters", .l fl),
   ("exclude", .l [])]

/-- The `locale` assignment of `build_logiclayer_url`. -/
def locale_ps (q : Query) (ps : List (String × PVal)) : List (String × PVal) :=
  match q.locale with
  | some loc => dictSet ps "locale" (.s loc)
  | none => ps

/-- The `limit` assignment: only when `pagination[0] > 0`, as `"page"` or
`"page,offset"` depending on `pagination[1] > 0`. -/
def limit_ps (q : Query) (ps : List (String × PVal)) : List (String × PVal) :=
  if q.pagination.1 > 0 then
    dictSet ps "limit" (.s (if q.pagination.2 > 0 then
      intFmt q.pagination.1 ++ "," ++ intFmt q.pagination.2 else intFmt q.pagination.1))
  else ps

/-- The `sort` assignment: only when a sort key is set, as `"<key>.<order>"`. -/
def sort_ps (q : Query) (ps : List (String × PVal)) : List (String × PVal) :=
  match q.sorting.1 with
  | some key => dictSet ps "sort" (.s (key ++ "." ++ q.sorting.2))
  | none => ps

/-- The params dict built by `build_logiclayer_url` just before its final
filter-sort-join pass, `Except.error` being an exception escaping the
function.  The `time` branch faithfully reproduces
`params["time"] = "{}.{}".join(*query.time),` — `str.join` called with two
positional arguments, which always raises
`TypeError: join() takes exactly one argument (2 given)` when both time
components are set. -/
def build_params (q : Query) : Except String (List (String × PVal)) :=
  match q.cube with
  | none => .error "AttributeError: NoneType object has no attribute name"
  | some c =>
    match drill_lists q.drilldowns with
    | .error e => .error e
    | .ok dl =>
      match q.filters.mapM (fun kv => kv.2.serialize) with
      | .error e => .error e
      | .ok fl =>
        match q.cuts.foldlM cut_step (locale_ps q (base_ps c q.measures dl fl)) with
        | .error e => .error e
        | .ok ps1 =>
          if q.time.1.isSome ∧ q.time.2.isSome then
            .error "TypeError: join() takes exactly one argument (2 given)"
          else
            match q.calculations.foldlM calc_step (sort_ps q (limit_ps q ps1)) with
            | .error e => .error e
            | .ok ps2 => .ok (apply_options ps2 q.options)

/-- `is_valid_value`: collections must be non-empty, strings non-empty,
anything else non-None (all stored values here are strings or lists). -/
def is_valid_value : PVal → Bool
  | .l v => v.length > 0
  | .s v => v ≠ ""

/-- The `",".join(sorted(value)) if isinstance(value, (list, set)) else value`
expression of the final dict comprehension. -/
def render : PVal → String
  | .s v => v
  | .l v => String.intercalate "," (sortStrings v)

/-- The final dict comprehension of `build_logiclayer_url`: drop invalid
values and comma-join every remaining collection in sorted order; plain
strings pass through untouched. -/
def finalize (ps : List (String × PVal)) : List (String × String) :=
  ps.filterMap fun kv =>
    if is_valid_value kv.2 then some (kv.1, render kv.2) else none

/-- Parameter list of the serialized logiclayer URL. -/
def final_params (q : Query) : Except String (List (String × String)) :=
  (build_params q).map finalize

/-- `TesseractQuery.get_url` for the logiclayer endpoint:
`"data.<extension>?<query-string>"`.  `urlencode`'s percent/plus escaping
of individual bytes is not modelled: the claims quantify over parameter
keys and values, which `final_params` exposes losslessly. -/
def Query.get_url (q : Query) : Except String String :=
  (final_params q).map fun ps =>
    "data." ++ q.extension ++ "?" ++
      String.intercalate "&" (ps.map fun kv => kv.1 ++ "=" ++ kv.2)

theorem lookupKV_dictSet_self (ps : List (String × PVal)) (k : String) (v : PVal) :
    lookupKV (dictSet ps k v) k = some v := by
  induction ps with
  | nil => simp [dictSet, lookupKV]
  | cons kv rest ih =>
    by_cases h : kv.1 = k
    · simp [dictSet, h, lookupKV]
    · simp [dictSet, h, lookupKV, ih]

theorem lookupKV_dictSet_ne {ps : List (String × PVal)} {k k' : String} {v : PVal}
    (h : k' ≠ k) : lookupKV (dictSet ps k v) k' = lookupKV ps k' := by
  have h' : ¬ k = k' := fun he => h he.symm
  induction ps with
  | nil => simp [dictSet, lookupKV, h']
  | cons kv rest ih =>
    by_cases hk : kv.1 = k
    · subst hk
      have : ¬ kv.1 = k' := h'
      simp [dictSet, lookupKV, this]
    · by_cases hk' : kv.1 = k'
      · simp [dictSet, hk, lookupKV, hk', h]
      · simp [dictSet, hk, lookupKV, hk', ih]

theorem keys_dictSet (ps : List (String × PVal)) (k : String) (v : PVal) :
    (dictSet ps k v).map Prod.fst =
      if k ∈ ps.map Prod.fst then ps.map Prod.fst else ps.map Prod.fst ++ [k] := by
  induction ps with
  | nil => simp [dictSet]
  | cons kv rest ih =>
    by_cases h : kv.1 = k
    · simp [dictSet, h]
    · have h' : ¬ k = kv.1 := fun he => h he.symm
      simp only [dictSet, h, if_false, List.map_cons, ih, List.mem_cons, h']
      by_cases hm : k ∈ rest.map Prod.fst <;> simp [hm, h']

theorem nodupKeys_dictSet {ps : List (String × PVal)} (k : String) (v : PVal)
    (h : (ps.map Prod.fst).Nodup) : ((dictSet ps k v).map Prod.fst).Nodup := by
  rw [keys_dictSet]
  by_cases hm : k ∈ ps.map Prod.fst
  · simpa [hm]
  · simpa [hm, List.nodup_append] using h

theorem dictExtend_keys {ps ps' : List (String × PVal)} {k : String} {xs : List String}
    (h : dictExtend ps k xs = .ok ps') : ps'.map Prod.fst = ps.map Prod.fst := by
  induction ps generalizing ps' with
  | nil => simp [dictExtend] at h
  | cons kv rest ih =>
    by_cases hk : kv.1 = k
    · cases hv : kv.2 with
      | l cur =>
        simp [dictExtend, hk, hv] at h
        subst h; simp [hk]
      | s sv => simp [dictExtend, hk, hv] at h
    · cases hrec : dictExtend rest k xs with
      | error e => simp [dictExtend, hk, hrec, Except.map] at h
      | ok ps'' =>
        simp [dictExtend, hk, hrec, Except.map] at h
        subst h
        simp [ih hrec]

theorem lookupKV_dictExtend_ne {ps ps' : List (String × PVal)} {k k' : String}
    {xs : List String} (h : dictExtend ps k xs = .ok ps') (hne : k' ≠ k) :
    lookupKV ps' k' = lookupKV ps k' := by
  induction ps generalizing ps' with
  | nil => simp [dictExtend] at h
  | cons kv rest ih =>
    by_cases hk : kv.1 = k
    · cases hv : kv.2 with
      | l cur =>
        simp [dictExtend, hk, hv] at h
        subst h
        have h2 : ¬ k = k' := fun he => hne he.symm
        simp [lookupKV, hk, h2]
      | s sv => simp [dictExtend, hk, hv] at h
    · cases hrec : dictExtend rest k xs with
      | error e => simp [dictExtend, hk, hrec, Except.map] at h
      | ok ps'' =>
        simp [dictExtend, hk, hrec, Except.map] at h
        subst h
        by_cases hk' : kv.1 = k'
        · simp [lookupKV, hk']
        · simp [lookupKV, hk', ih hrec]

theorem lookupKV_dictExtend_self {ps ps' : List (String × PVal)} {k : String}
    {xs : List String} (h : dictExtend ps k xs = .ok ps') :
    ∃ cur, lookupKV ps k = some (.l cur) ∧ lookupKV ps' k = some (.l (cur ++ xs)) := by
  induction ps generalizing ps' with
  | nil => simp [dictExtend] at h
  | cons kv rest ih =>
    by_cases hk : kv.1 = k
    · cases hv : kv.2 with
      | l cur =>
        simp [dictExtend, hk, hv] at h
        subst h
        exact ⟨cur, by simp [lookupKV, hk, hv], by simp [lookupKV, hk]⟩
      | s sv => simp [dictExtend, hk, hv] at h
    · cases hrec : dictExtend rest k xs with
      | error e => simp [dictExtend, hk, hrec, Except.map] at h
      | ok ps'' =>
        simp [dictExtend, hk, hrec, Except.map] at h
        subst h
        rcases ih hrec with ⟨cur, hc1, hc2⟩
        exact ⟨cur, by simp [lookupKV, hk, hc1], by simp [lookupKV, hk, hc2]⟩

theorem except_bind_ok {α β : Type} {x : Except String α} {f : α → Except String β} {b : β} :
    (x >>= f) = .ok b ↔ ∃ a, x = .ok a ∧ f a = .ok b := by
  cases x <;> simp [Bind.bind, Except.bind]

/-- No cut in the list serializes under the parameter key `k` (the cut keys
of a query are the unique names of its cut levels, which in any realistic
schema are disjoint from the fixed logiclayer parameter names). -/
def cuts_avoid (cuts : List (String × Cut)) (k : String) : Prop :=
  ∀ kv ∈ cuts, ∀ lvl, kv.2.level = some lvl → get_unique_name_level lvl ≠ k

theorem cut_fold_lookup_ne {cuts : List (String × Cut)} {ps ps' : List (String × PVal)}
    {k : String} (h : cuts.foldlM cut_step ps = .ok ps') (hk : k ≠ "exclude")
    (hc : cuts_avoid cuts k) : lookupKV ps' k = lookupKV ps k := by
  induction cuts generalizing ps with
  | nil => simp only [List.foldlM_nil] at h; exact congrArg (lookupKV · k) (Except.ok.inj h).symm
  | cons kv rest ih =>
    rw [List.foldlM_cons, except_bind_ok] at h
    rcases h with ⟨ps1, hstep, hfold⟩
    have hrest : cuts_avoid rest k := fun kv2 hm => hc kv2 (List.mem_cons_of_mem _ hm)
    rw [ih hfold hrest]
    cases hlvl : kv.2.level with
    | none => simp [cut_step, hlvl] at hstep
    | some lvl =>
      have hname : get_unique_name_level lvl ≠ k := hc kv (List.mem_cons_self _ _) lvl hlvl
      simp only [cut_step, hlvl] at hstep
      by_cases hex : kv.2.is_exclusive
      · simp only [hex, if_true] at hstep
        rw [lookupKV_dictExtend_ne hstep hk,
            lookupKV_dictSet_ne (fun he => hname he.symm)]
      · simp only [hex, if_false] at hstep
        rw [← Except.ok.inj hstep, lookupKV_dictSet_ne (fun he => hname he.symm)]

/-- The level names the cut loop appends to the `exclude` list: one entry
per exclusive cut, in cut order. -/
def excl_names (cuts : List (String × Cut)) : List String :=
  cuts.filterMap fun kv =>
    match kv.2.level with
    | some lvl => if kv.2.is_exclusive then some (get_unique_name_level lvl) else none
    | none => none

theorem cut_fold_exclude {cuts : List (String × Cut)} {ps ps' : List (String × PVal)}
    {cur : List String} (h : cuts.foldlM cut_step ps = .ok ps')
    (hc : cuts_avoid cuts "exclude") (hcur : lookupKV ps "exclude" = some (.l cur)) :
    lookupKV ps' "exclude" = some (.l (cur ++ excl_names cuts)) := by
  induction cuts generalizing ps cur with
  | nil =>
    simp only [List.foldlM_nil] at h
    rw [← Except.ok.inj h, excl_names]
    simpa using hcur
  | cons kv rest ih =>
    rw [List.foldlM_cons, except_bind_ok] at h
    rcases h with ⟨ps1, hstep, hfold⟩
    have hrest : cuts_avoid rest "exclude" := fun kv2 hm => hc kv2 (List.mem_cons_of_mem _ hm)
    cases hlvl : kv.2.level with
    | none => simp [cut_step, hlvl] at hstep
    | some lvl =>
      have hname : get_unique_name_level lvl ≠ "exclude" :=
        hc kv (List.mem_cons_self _ _) lvl hlvl
      simp only [cut_step, hlvl] at hstep
      by_cases hex : kv.2.is_exclusive
      · simp only [hex, if_true] at hstep
        have hmid : lookupKV (dictSet ps (get_unique_name_level lvl)
            (.s (String.intercalate "," kv.2.members))) "exclude" = some (.l cur) := by
          rw [lookupKV_dictSet_ne (fun he => hname he.symm)]; exact hcur
        rcases lookupKV_dictExtend_self hstep with ⟨cur2, hc2a, hc2b⟩
        rw [hmid] at hc2a
        cases hc2a
        rw [ih hfold hrest hc2b]
        simp [excl_names, hlvl, hex]
      · simp only [hex, if_false] at hstep
        have hmid : lookupKV ps1 "exclude" = some (.l cur) := by
          rw [← Except.ok.inj hstep, lookupKV_dictSet_ne (fun he => hname he.symm)]
          exact hcur
        rw [ih hfold hrest hmid]
        simp [excl_names, hlvl, hex]

/-- The output parameter each calculation writes (`key`, formatted value):
`none` for ignored kinds and for the raw-string `topk` that raises instead
of writing. -/
def calcKey : Calculation → Option (String × String)
  | .growth period value => some ("growth", growth_fmt period value)
  | .rca location category value => some ("rca", rca_fmt location category value)
  | .topk amount category (.measure m) order => some ("top", top_fmt amount category m.name order)
  | .topk _ _ (.raw _) _ => none
  | .other _ => none

/-- Does this calculation write the output key `K`? -/
def writesKey (K : String) (c : Calculation) : Bool :=
  match calcKey c with
  | some kv => kv.1 = K
  | none => false

/-- The last element of the list satisfying the test (the occurrence whose
write survives, since later writes overwrite earlier ones). -/
def lastSuch {α : Type} (p : α → Bool) : List α → Option α
  | [] => none
  | c :: cs =>
    match lastSuch p cs with
    | some r => some r
    | none => if p c then some c else none

theorem calc_fold_lookup (K : String) {cs : List Calculation} {ps ps' : List (String × PVal)}
    (h : cs.foldlM calc_step ps = .ok ps') :
    lookupKV ps' K =
      match lastSuch (writesKey K) cs with
      | some c => (calcKey c).map (fun kv => PVal.s kv.2)
      | none => lookupKV ps K := by
  induction cs generalizing ps with
  | nil => simp only [List.foldlM_nil] at h; simp [lastSuch, ← Except.ok.inj h]
  | cons c cs ih =>
    rw [List.foldlM_cons, except_bind_ok] at h
    rcases h with ⟨ps1, hstep, hfold⟩
    have := ih hfold
    cases hlast : lastSuch (writesKey K) cs with
    | some r =>
      simp only [lastSuch, hlast]
      rw [hlast] at this
      exact this
    | none =>
      rw [hlast] at this
      rw [this]
      simp only [lastSuch, hlast]
      by_cases hw : writesKey K c
      · simp only [hw, if_true]
        cases c with
        | growth p v =>
          have hK : "growth" = K := by simpa [writesKey, calcKey] using hw
          cases (Except.ok.inj hstep)
          rw [← hK]
          simp [calcKey, lookupKV_dictSet_self]
        | rca l cat v =>
          have hK : "rca" = K := by simpa [writesKey, calcKey] using hw
          cases (Except.ok.inj hstep)
          rw [← hK]
          simp [calcKey, lookupKV_dictSet_self]
        | topk a cat val o =>
          cases val with
          | measure m =>
            have hK : "top" = K := by simpa [writesKey, calcKey] using hw
            cases (Except.ok.inj hstep)
            rw [← hK]
            simp [calcKey, lookupKV_dictSet_self]
          | raw s => simp [writesKey, calcKey] at hw
        | other kind => simp [writesKey, calcKey] at hw
      · simp only [hw, if_false]
        cases c with
        | growth p v =>
          have hK : ¬ "growth" = K := by simpa [writesKey, calcKey] using hw
          cases (Except.ok.inj hstep)
          exact lookupKV_dictSet_ne (fun he => hK he.symm)
        | rca l cat v =>
          have hK : ¬ "rca" = K := by simpa [writesKey, calcKey] using hw
          cases (Except.ok.inj hstep)
          exact lookupKV_dictSet_ne (fun he => hK he.symm)
        | topk a cat val o =>
          cases val with
          | measure m =>
            have hK : ¬ "top" = K := by simpa [writesKey, calcKey] using hw
            cases (Except.ok.inj hstep)
            exact lookupKV_dictSet_ne (fun he => hK he.symm)
          | raw s => simp [calc_step] at hstep
        | other kind =>
          cases (Except.ok.inj hstep)
          rfl

/-- The four boolean option names the logiclayer serializer inspects. -/
def option_keys : List String := ["debug", "exclude_default_members", "parents", "sparse"]

theorem apply_options_lookup_ne (ps : List (String × PVal)) (opts : List (String × Bool))
    {k : String} (hk : k ∉ option_keys) :
    lookupKV (apply_options ps opts) k = lookupKV ps k := by
  simp only [option_keys, List.mem_cons, List.not_mem_nil, or_false, not_or] at hk
  obtain ⟨h1, h2, h3, h4⟩ := hk
  simp only [apply_options]
  split_ifs <;>
    simp [lookupKV_dictSet_ne h1, lookupKV_dictSet_ne h2,
          lookupKV_dictSet_ne h3, lookupKV_dictSet_ne h4]

theorem apply_options_lookup_self (ps : List (String × PVal)) (opts : List (String × Bool))
    {o : String} (ho : o ∈ option_keys) :
    lookupKV (apply_options ps opts) o =
      if lookupKV opts o = some true then some (.s "true") else lookupKV ps o := by
  simp only [option_keys, List.mem_cons, List.not_mem_nil, or_false] at ho
  rcases ho with rfl | rfl | rfl | rfl <;>
  · simp only [apply_options]
    split_ifs <;>
      simp_all [lookupKV_dictSet_self, lookupKV_dictSet_ne, String.ne_of_lt, reduceCtorEq]

/-- Every parameter key `apply_options` may add or rebind is one of the four
option names; any other key keeps its binding (direct restatement of
`apply_options_lookup_ne`, used by claim C7). -/
theorem apply_options_only_option_keys (ps : List (String × PVal))
    (opts : List (String × Bool)) (k : String) (hk : k ∉ option_keys) :
    lookupKV (apply_options ps opts) k = lookupKV ps k :=
  apply_options_lookup_ne ps opts hk

theorem nodupKeys_cut_fold {cuts : List (String × Cut)} {ps ps' : List (String × PVal)}
    (h : cuts.foldlM cut_step ps = .ok ps') (hnd : (ps.map Prod.fst).Nodup) :
    (ps'.map Prod.fst).Nodup := by
  induction cuts generalizing ps with
  | nil => simp only [List.foldlM_nil] at h; exact (Except.ok.inj h) ▸ hnd
  | cons kv rest ih =>
    rw [List.foldlM_cons, except_bind_ok] at h
    rcases h with ⟨ps1, hstep, hfold⟩
    refine ih hfold ?_
    cases hlvl : kv.2.level with
    | none => simp [cut_step, hlvl] at hstep
    | some lvl =>
      simp only [cut_step, hlvl] at hstep
      by_cases hex : kv.2.is_exclusive
      · simp only [hex, if_true] at hstep
        rw [dictExtend_keys hstep]
        exact nodupKeys_dictSet _ _ hnd
      · simp only [hex, if_false] at hstep
        rw [← Except.ok.inj hstep]
        exact nodupKeys_dictSet _ _ hnd

theorem nodupKeys_calc_fold {cs : List Calculation} {ps ps' : List (String × PVal)}
    (h : cs.foldlM calc_step ps = .ok ps') (hnd : (ps.map Prod.fst).Nodup) :
    (ps'.map Prod.fst).Nodup := by
  induction cs generalizing ps with
  | nil => simp only [List.foldlM_nil] at h; exact (Except.ok.inj h) ▸ hnd
  | cons c cs ih =>
    rw [List.foldlM_cons, except_bind_ok] at h
    rcases h with ⟨ps1, hstep, hfold⟩
    refine ih hfold ?_
    cases c with
    | growth p v => rw [← Except.ok.inj hstep]; exact nodupKeys_dictSet _ _ hnd
    | rca l cat v => rw [← Except.ok.inj hstep]; exact nodupKeys_dictSet _ _ hnd
    | topk a cat val o =>
      cases val with
      | measure m => rw [← Except.ok.inj hstep]; exact nodupKeys_dictSet _ _ hnd
      | raw s => simp [calc_step] at hstep
    | other kind => rw [← Except.ok.inj hstep]; exact hnd

theorem nodupKeys_apply_options (ps : List (String × PVal)) (opts : List (String × Bool))
    (hnd : (ps.map Prod.fst).Nodup) : ((apply_options ps opts).map Prod.fst).Nodup := by
  simp only [apply_options]
  split_ifs <;> (repeat apply nodupKeys_dictSet) <;> exact hnd

theorem nodupKeys_locale_ps (q : Query) (ps : List (String × PVal))
    (hnd : (ps.map Prod.fst).Nodup) : ((locale_ps q ps).map Prod.fst).Nodup := by
  cases h : q.locale with
  | none => simpa [locale_ps, h]
  | some loc => simp only [locale_ps, h]; exact nodupKeys_dictSet _ _ hnd

theorem nodupKeys_limit_ps (q : Query) (ps : List (String × PVal))
    (hnd : (ps.map Prod.fst).Nodup) : ((limit_ps q ps).map Prod.fst).Nodup := by
  simp only [limit_ps]
  split_ifs <;> first | exact nodupKeys_dictSet _ _ hnd | exact hnd

theorem nodupKeys_sort_ps (q : Query) (ps : List (String × PVal))
    (hnd : (ps.map Prod.fst).Nodup) : ((sort_ps q ps).map Prod.fst).Nodup := by
  cases h : q.sorting.1 with
  | none => simpa [sort_ps, h]
  | some key => simp only [sort_ps, h]; exact nodupKeys_dictSet _ _ hnd

theorem nodupKeys_base_ps (c : Cube) (measures : List Measure)
    (dl : List String × List String) (fl : List String) :
    ((base_ps c measures dl fl).map Prod.fst).Nodup := by
  simp [base_ps]

theorem build_params_ok_elim {q : Query} {ps : List (String × PVal)}
    (h : build_params q = .ok ps) :
    ∃ c dl fl ps1 ps2,
      q.cube = some c ∧
      drill_lists q.drilldowns = .ok dl ∧
      q.filters.mapM (fun kv => kv.2.serialize) = .ok fl ∧
      q.cuts.foldlM cut_step (locale_ps q (base_ps c q.measures dl fl)) = .ok ps1 ∧
      ¬(q.time.1.isSome ∧ q.time.2.isSome) ∧
      q.calculations.foldlM calc_step (sort_ps q (limit_ps q ps1)) = .ok ps2 ∧
      ps = apply_options ps2 q.options := by
  unfold build_params at h
  cases hcube : q.cube with
  | none => rw [hcube] at h; simp at h
  | some c =>
    rw [hcube] at h
    dsimp only [] at h
    cases hdl : drill_lists q.drilldowns with
    | error e => rw [hdl] at h; simp at h
    | ok dl =>
      rw [hdl] at h
      dsimp only [] at h
      cases hfl : q.filters.mapM (fun kv => kv.2.serialize) with
      | error e => rw [hfl] at h; simp at h
      | ok fl =>
        rw [hfl] at h
        dsimp only [] at h
        cases hcut : q.cuts.foldlM cut_step (locale_ps q (base_ps c q.measures dl fl)) with
        | error e => rw [hcut] at h; simp at h
        | ok ps1 =>
          rw [hcut] at h
          dsimp only [] at h
          by_cases ht : q.time.1.isSome ∧ q.time.2.isSome
          · rw [if_pos ht] at h; simp at h
          · rw [if_neg ht] at h
            cases hcalc : q.calculations.foldlM calc_step (sort_ps q (limit_ps q ps1)) with
            | error e => rw [hcalc] at h; simp at h
            | ok ps2 =>
              rw [hcalc] at h
              dsimp only [] at h
              exact ⟨c, dl, fl, ps1, ps2, rfl, rfl, rfl, hcut, ht, hcalc, (Except.ok.inj h).symm⟩

theorem nodupKeys_build {q : Query} {ps : List (String × PVal)}
    (h : build_params q = .ok ps) : (ps.map Prod.fst).Nodup := by
  rcases build_params_ok_elim h with ⟨c, dl, fl, ps1, ps2, hcube, hdl, hfl, hcut, ht, hcalc, rfl⟩
  exact nodupKeys_apply_options _ _ (nodupKeys_calc_fold hcalc
    (nodupKeys_sort_ps _ _ (nodupKeys_limit_ps _ _ (nodupKeys_cut_fold hcut
      (nodupKeys_locale_ps _ _ (nodupKeys_base_ps c q.measures dl fl))))))

theorem lookupKV_none_of_not_mem {α : Type} {ps : List (String × α)} {k : String}
    (h : k ∉ ps.map Prod.fst) : lookupKV ps k = none := by
  induction ps with
  | nil => rfl
  | cons kv rest ih =>
    simp only [List.map_cons, List.mem_cons, not_or] at h
    have hne : ¬ kv.1 = k := fun he => h.1 he.symm
    simp [lookupKV, hne, ih h.2]

theorem keys_finalize_sub {ps : List (String × PVal)} {k : String}
    (h : k ∈ (finalize ps).map Prod.fst) : k ∈ ps.map Prod.fst := by
  induction ps with
  | nil => simp [finalize] at h
  | cons kv rest ih =>
    simp only [finalize, List.filterMap_cons] at h
    by_cases hv : is_valid_value kv.2
    · simp only [hv, if_true] at h
      rcases (List.mem_cons).mp h with he | hm
      · simp [he]
      · exact List.mem_cons_of_mem _ (ih (by simpa [finalize] using hm))
    · simp only [hv, if_false] at h
      exact List.mem_cons_of_mem _ (ih (by simpa [finalize] using h))

theorem lookupKV_finalize {ps : List (String × PVal)} (hnd : (ps.map Prod.fst).Nodup)
    (k : String) :
    lookupKV (finalize ps) k =
      match lookupKV ps k with
      | some v => if is_valid_value v then some (render v) else none
      | none => none := by
  induction ps with
  | nil => simp [finalize, lookupKV]
  | cons kv rest ih =>
    simp only [List.map_cons, List.nodup_cons] at hnd
    by_cases hk : kv.1 = k
    · subst hk
      by_cases hv : is_valid_value kv.2
      · simp [finalize, List.filterMap_cons, hv, lookupKV]
      · have hnone : lookupKV (finalize rest) kv.1 = none := by
          refine lookupKV_none_of_not_mem (fun hm => hnd.1 ?_)
          exact keys_finalize_sub hm
        simp only [finalize] at hnone
        simp [finalize, List.filterMap_cons, hv, lookupKV, hnone]
    · have := ih hnd.2
      by_cases hv : is_valid_value kv.2
      · simpa [finalize, List.filterMap_cons, hv, lookupKV, hk] using this
      · simpa [finalize, List.filterMap_cons, hv, lookupKV, hk] using this

theorem lookupKV_locale_ps (q : Query) (ps : List (String × PVal)) {k : String}
    (hk : k ≠ "locale") : lookupKV (locale_ps q ps) k = lookupKV ps k := by
  cases h : q.locale with
  | none => simp [locale_ps, h]
  | some loc => simp only [locale_ps, h]; exact lookupKV_dictSet_ne hk

theorem lookupKV_limit_ps (q : Query) (ps : List (String × PVal)) {k : String}
    (hk : k ≠ "limit") : lookupKV (limit_ps q ps) k = lookupKV ps k := by
  simp only [limit_ps]
  split_ifs <;> first | exact lookupKV_dictSet_ne hk | rfl

theorem lookupKV_sort_ps (q : Query) (ps : List (String × PVal)) {k : String}
    (hk : k ≠ "sort") : lookupKV (sort_ps q ps) k = lookupKV ps k := by
  cases h : q.sorting.1 with
  | none => simp [sort_ps, h]
  | some key => simp only [sort_ps, h]; exact lookupKV_dictSet_ne hk

theorem writesKey_false {k : String} (c : Calculation)
    (h1 : k ≠ "growth") (h2 : k ≠ "rca") (h3 : k ≠ "top") : writesKey k c = false := by
  cases c with
  | growth p v =>
    have hg : ¬ ("growth" : String) = k := fun he => h1 he.symm
    simp [writesKey, calcKey, hg]
  | rca l cat v =>
    have hr : ¬ ("rca" : String) = k := fun he => h2 he.symm
    simp [writesKey, calcKey, hr]
  | topk a cat val o =>
    cases val with
    | measure m =>
      have htp : ¬ ("top" : String) = k := fun he => h3 he.symm
      simp [writesKey, calcKey, htp]
    | raw s => simp [writesKey, calcKey]
  | other kind => simp [writesKey, calcKey]

theorem lastSuch_none_of_false {α : Type} {p : α → Bool} (l : List α)
    (h : ∀ c ∈ l, p c = false) : lastSuch p l = none := by
  induction l with
  | nil => rfl
  | cons c cs ih =>
    simp [lastSuch, ih (fun x hx => h x (List.mem_cons_of_mem _ hx)),
          h c (List.mem_cons_self _ _)]

/-- A parameter key outside every later assignment's reach keeps the binding
it got in the initial params dict, through the whole serializer pipeline. -/
theorem build_lookup_base {q : Query} {ps : List (String × PVal)} {k : String}
    (h : build_params q = .ok ps)
    (hck : cuts_avoid q.cuts k)
    (hk1 : k ≠ "locale") (hk2 : k ≠ "exclude") (hk3 : k ≠ "limit") (hk4 : k ≠ "sort")
    (hk5 : k ∉ option_keys) (hk6 : k ≠ "growth") (hk7 : k ≠ "rca") (hk8 : k ≠ "top") :
    ∃ c dl fl,
      q.cube = some c ∧
      drill_lists q.drilldowns = .ok dl ∧
      q.filters.mapM (fun kv => kv.2.serialize) = .ok fl ∧
      lookupKV ps k = lookupKV (base_ps c q.measures dl fl) k := by
  rcases build_params_ok_elim h with ⟨c, dl, fl, ps1, ps2, hcube, hdl, hfl, hcut, ht, hcalc, rfl⟩
  refine ⟨c, dl, fl, hcube, hdl, hfl, ?_⟩
  rw [apply_options_lookup_ne _ _ hk5]
  have hlast : lastSuch (writesKey k) q.calculations = none :=
    lastSuch_none_of_false _ (fun c _ => writesKey_false c hk6 hk7 hk8)
  have h1 := calc_fold_lookup k hcalc
  rw [hlast] at h1
  rw [h1, lookupKV_sort_ps _ _ hk4, lookupKV_limit_ps _ _ hk3,
      cut_fold_lookup_ne hcut hk2 hck, lookupKV_locale_ps _ _ hk1]

theorem final_params_ok_elim {q : Query} {fps : List (String × String)}
    (h : final_params q = .ok fps) :
    ∃ ps, build_params q = .ok ps ∧ fps = finalize ps := by
  unfold final_params at h
  cases hb : build_params q with
  | error e => rw [hb] at h; simp [Except.map] at h
  | ok ps =>
    rw [hb] at h
    simp only [Except.map] at h
    exact ⟨ps, rfl, (Except.ok.inj h).symm⟩

/-- Lookup of one of the four fixed collection-valued parameters in the
serialized output: present exactly when the accumulated list is non-empty,
and rendered as the sorted comma-join of that list. -/
theorem final_lookup_coll {q : Query} {fps : List (String × String)} {k : String}
    {items : List String}
    (h : final_params q = .ok fps)
    (hbase : ∀ ps, build_params q = .ok ps → lookupKV ps k = some (.l items)) :
    lookupKV fps k =
      if items = [] then none
      else some (String.intercalate "," (sortStrings items)) := by
  rcases final_params_ok_elim h with ⟨ps, hb, rfl⟩
  rw [lookupKV_finalize (nodupKeys_build hb) k, hbase ps hb]
  cases items with
  | nil => simp [is_valid_value]
  | cons x xs => simp [is_valid_value, render]

theorem build_lookup_measures {q : Query} {ps : List (String × PVal)}
    (h : build_params q = .ok ps) (hck : cuts_avoid q.cuts "measures") :
    lookupKV ps "measures" = some (.l (measure_names q.measures)) := by
  rcases build_lookup_base h hck (by decide) (by decide) (by decide) (by decide)
    (by decide) (by decide) (by decide) (by decide) with ⟨c, dl, fl, _, _, _, hl⟩
  rw [hl]
  simp [base_ps, lookupKV]

theorem build_lookup_drilldowns {q : Query} {ps : List (String × PVal)}
    (h : build_params q = .ok ps) (hck : cuts_avoid q.cuts "drilldowns") :
    ∃ dl, drill_lists q.drilldowns = .ok dl ∧ lookupKV ps "drilldowns" = some (.l dl.1) := by
  rcases build_lookup_base h hck (by decide) (by decide) (by decide) (by decide)
    (by decide) (by decide) (by decide) (by decide) with ⟨c, dl, fl, _, hdl, _, hl⟩
  refine ⟨dl, hdl, ?_⟩
  rw [hl]
  simp [base_ps, lookupKV]

theorem build_lookup_properties {q : Query} {ps : List (String × PVal)}
    (h : build_params q = .ok ps) (hck : cuts_avoid q.cuts "properties") :
    ∃ dl, drill_lists q.drilldowns = .ok dl ∧ lookupKV ps "properties" = some (.l dl.2) := by
  rcases build_lookup_base h hck (by decide) (by decide) (by decide) (by decide)
    (by decide) (by decide) (by decide) (by decide) with ⟨c, dl, fl, _, hdl, _, hl⟩
  refine ⟨dl, hdl, ?_⟩
  rw [hl]
  simp [base_ps, lookupKV]

theorem build_lookup_filters {q : Query} {ps : List (String × PVal)}
    (h : build_params q = .ok ps) (hck : cuts_avoid q.cuts "filters") :
    ∃ fl, q.filters.mapM (fun kv => kv.2.serialize) = .ok fl ∧
      lookupKV ps "filters" = some (.l fl) := by
  rcases build_lookup_base h hck (by decide) (by decide) (by decide) (by decide)
    (by decide) (by decide) (by decide) (by decide) with ⟨c, dl, fl, _, _, hfl, hl⟩
  refine ⟨fl, hfl, ?_⟩
  rw [hl]
  simp [base_ps, lookupKV]

theorem lookupKV_updateKV_self {α : Type} (m : List (String × α)) (k : String)
    (f : α → α) (dflt : α) :
    lookupKV (updateKV m k f dflt) k = some (f ((lookupKV m k).getD dflt)) := by
  induction m with
  | nil => simp [updateKV, lookupKV]
  | cons kv rest ih =>
    by_cases h : kv.1 = k
    · simp [updateKV, h, lookupKV]
    · simp [updateKV, h, lookupKV, ih]

theorem lookupKV_updateKV_ne {α : Type} {m : List (String × α)} {k k' : String}
    {f : α → α} {dflt : α} (h : k' ≠ k) :
    lookupKV (updateKV m k f dflt) k' = lookupKV m k' := by
  have h' : ¬ k = k' := fun he => h he.symm
  induction m with
  | nil => simp [updateKV, lookupKV, h']
  | cons kv rest ih =>
    by_cases hk : kv.1 = k
    · subst hk
      have : ¬ kv.1 = k' := h'
      simp [updateKV, lookupKV, this]
    · by_cases hk' : kv.1 = k'
      · simp [updateKV, hk, lookupKV, hk', h]
      · simp [updateKV, hk, lookupKV, hk', ih]

theorem keys_updateKV {α : Type} (m : List (String × α)) (k : String) (f : α → α) (dflt : α) :
    (updateKV m k f dflt).map Prod.fst =
      if k ∈ m.map Prod.fst then m.map Prod.fst else m.map Prod.fst ++ [k] := by
  induction m with
  | nil => simp [updateKV]
  | cons kv rest ih =>
    by_cases h : kv.1 = k
    · simp [updateKV, h]
    · have h' : ¬ k = kv.1 := fun he => h he.symm
      simp only [updateKV, h, if_false, List.map_cons, ih, List.mem_cons, h']
      by_cases hm : k ∈ rest.map Prod.fst <;> simp [hm, h']

/-- The number of entries stored under key `k`. -/
def countKey {α : Type} (m : List (String × α)) (k : String) : Nat :=
  (m.map Prod.fst).count k

theorem countKey_updateKV_self {α : Type} (m : List (String × α)) (k : String)
    (f : α → α) (dflt : α) :
    countKey (updateKV m k f dflt) k = max (countKey m k) 1 := by
  unfold countKey
  rw [keys_updateKV]
  by_cases hm : k ∈ m.map Prod.fst
  · simp only [hm, if_true]
    have : 1 ≤ (m.map Prod.fst).count k := List.one_le_count_iff.mpr hm
    omega
  · simp only [hm, if_false, List.count_append]
    have : (m.map Prod.fst).count k = 0 := List.count_eq_zero.mpr hm
    simp [this]

theorem countKey_updateKV_ne {α : Type} (m : List (String × α)) {k k' : String}
    (f : α → α) (dflt : α) (h : k' ≠ k) :
    countKey (updateKV m k f dflt) k' = countKey m k' := by
  unfold countKey
  rw [keys_updateKV]
  by_cases hm : k ∈ m.map Prod.fst
  · simp [hm]
  · simp [hm, List.count_append, List.count_cons, List.count_nil, fun he => h he]

theorem nodupKeys_updateKV {α : Type} {m : List (String × α)} (k : String) (f : α → α)
    (dflt : α) (h : (m.map Prod.fst).Nodup) : ((updateKV m k f dflt).map Prod.fst).Nodup := by
  rw [keys_updateKV]
  by_cases hm : k ∈ m.map Prod.fst
  · simpa [hm]
  · simpa [hm, List.nodup_append] using h

theorem check_filters_ok_iff (measures : List Measure) (filters : List (String × QFilter))
    (hwf : ∀ kv ∈ filters, kv.2.value ≠ none) :
    check_filters measures filters = .ok () ↔
      ∀ kv ∈ filters, ∀ m, kv.2.value = some (.measure m) → m ∈ measures := by
  induction filters with
  | nil => simp [check_filters]
  | cons kv rest ih =>
    have hwr : ∀ kv2 ∈ rest, kv2.2.value ≠ none :=
      fun kv2 hm => hwf kv2 (List.mem_cons_of_mem _ hm)
    cases hv : kv.2.value with
    | none => exact absurd hv (hwf kv (List.mem_cons_self _ _))
    | some fv =>
      cases fv with
      | str s =>
        simp only [check_filters, hv, List.forall_mem_cons]
        rw [ih hwr]
        simp [hv]
      | measure m =>
        by_cases hm : m ∈ measures
        · simp only [check_filters, hv, hm, if_true, List.forall_mem_cons]
          rw [ih hwr]
          simp only [hv, iff_and_self]
          intro _ m2 hm2
          cases (Option.some.inj hm2 : FilterValue.measure m = .measure m2)
          exact hm
        · simp only [check_filters, hv, hm, if_false, List.forall_mem_cons]
          constructor
          · intro h; cases h
          · rintro ⟨hhead, -⟩
            exact absurd (hhead m rfl) hm

/-- C1: for every Query (with every stored Filter's value slot set, as
`set_filter` guarantees), `raise_on_invalid` raises an Invalid-Query error
if and only if no Cube is bound, or there are zero drilldowns, or zero
measures, or some Filter's value is a Measure object not contained in the
query's measure set; when it does not raise, it returns normally with the
query state unchanged. -/
theorem claim_C1_raise_on_invalid (q : Query)
    (hwf : ∀ kv ∈ q.filters, kv.2.value ≠ none) :
    ((∃ e, q.raise_on_invalid = .error e) ↔
      (q.cube = none ∨ q.drilldowns = [] ∨ q.measures = [] ∨
        ∃ kv ∈ q.filters, ∃ m, kv.2.value = some (.measure m) ∧ m ∉ q.measures)) ∧
    (¬(q.cube = none ∨ q.drilldowns = [] ∨ q.measures = [] ∨
        ∃ kv ∈ q.filters, ∃ m, kv.2.value = some (.measure m) ∧ m ∉ q.measures) →
      q.raise_on_invalid = .ok q) := by
  have hiff := check_filters_ok_iff q.measures q.filters hwf
  unfold Query.raise_on_invalid
  cases hcube : q.cube with
  | none =>
    refine ⟨⟨fun _ => Or.inl rfl, fun _ => ⟨_, rfl⟩⟩, fun hnot => absurd (Or.inl rfl) hnot⟩
  | some c =>
    by_cases hd : q.drilldowns.length = 0
    · rw [if_pos hd]
      have hde : q.drilldowns = [] := List.length_eq_zero.mp hd
      refine ⟨⟨fun _ => Or.inr (Or.inl hde), fun _ => ⟨_, rfl⟩⟩,
        fun hnot => absurd (Or.inr (Or.inl hde)) hnot⟩
    · rw [if_neg hd]
      by_cases hme : q.measures.length = 0
      · rw [if_pos hme]
        have hmee : q.measures = [] := List.length_eq_zero.mp hme
        refine ⟨⟨fun _ => Or.inr (Or.inr (Or.inl hmee)), fun _ => ⟨_, rfl⟩⟩,
          fun hnot => absurd (Or.inr (Or.inr (Or.inl hmee))) hnot⟩
      · rw [if_neg hme]
        cases hcf : check_filters q.measures q.filters with
        | error e =>
          have hbad : ∃ kv ∈ q.filters, ∃ m,
              kv.2.value = some (.measure m) ∧ m ∉ q.measures := by
            by_contra hno
            push_neg at hno
            have hok : check_filters q.measures q.filters = .ok () :=
              hiff.mpr (fun kv hkv m hv => hno kv hkv m hv)
            rw [hcf] at hok
            cases hok
          refine ⟨⟨fun _ => Or.inr (Or.inr (Or.inr hbad)), fun _ => ⟨e, rfl⟩⟩,
            fun hnot => absurd (Or.inr (Or.inr (Or.inr hbad))) hnot⟩
        | ok u =>
          cases u
          have hgood := hiff.mp hcf
          constructor
          · constructor
            · rintro ⟨e, he⟩
              simp at he
            · rintro (hc | hde | hmee | ⟨kv, hkv, m, hv, hnm⟩)
              · exact Option.noConfusion hc
              · exact absurd (by simp [hde]) hd
              · exact absurd (by simp [hmee]) hme
              · exact absurd (hgood kv hkv m hv) hnm
          · intro _
            rfl

/-- Level, measure, cube and query used by the witnesses below. -/
def c1w_level : Level :=
  { depth := 1, dimension := "Year", hierarchy := "Year", name := "Year" }

def c1w_measure : Measure := { aggregator_name := "sum", name := "Trade Value" }

def c1w_cube : Cube :=
  { dimensions := [{ hierarchies := [{ dimension := "Year", levels := [c1w_level],
                                       name := "Year" }], name := "Year" }],
    measures := [c1w_measure],
    name := "trade" }

def c1w_query : Query :=
  { cube := some c1w_cube,
    drilldowns := [("Year", { level := some c1w_level })],
    measures := [c1w_measure] }

/-- Witness for C1: a query with a cube, one drilldown, one measure and no
filters passes validation unchanged. -/
theorem claim_C1_witness : c1w_query.raise_on_invalid = .ok c1w_query :=
  (claim_C1_raise_on_invalid c1w_query (by simp [c1w_query])).2 (by simp [c1w_query])

/-- Property and level with unique names, mirroring the fixture data the
repository's own tests resolve against (`tests/test_models.py` expects
`get_level("Exporter Continent")` and `get_property("Importer Country ISO 2")`
to resolve entities by their unique names). -/
def c4_prop : Property :=
  { dimension := "Exporter Country", hierarchy := "Exporter Country", level := "Country",
    name := "ISO 2", unique_name := some "Exporter Country ISO 2" }

def c4_level : Level :=
  { depth := 1, dimension := "Exporter Country", hierarchy := "Exporter Country",
    name := "Country", properties := [c4_prop], unique_name := some "Exporter Country" }

def c4_cube : Cube :=
  { dimensions := [{ hierarchies := [{ dimension := "Exporter Country",
                                       levels := [c4_level],
                                       name := "Exporter Country" }],
                     name := "Exporter Country" }],
    measures := [],
    name := "trade" }

/-- C4 (failing-input evaluation): `Level.matches` and `Property.matches`
compare only `name`, so `get_level` / `get_property` fail (raise
`StopIteration`) on a string that equals an entity's `unique_name` but not
its `name`, while plain-name lookups still return the first match in tree
order.  The claim (and the repository's own test suite) says a
unique-name lookup must return the entity. -/
theorem claim_C4_lookup_matches_name_only :
    (∃ l ∈ c4_cube.levels, l.unique_name = some "Exporter Country") ∧
    c4_cube.get_level "Exporter Country" = none ∧
    c4_cube.get_level "Country" = some c4_level ∧
    (∃ p ∈ c4_cube.props, p.unique_name = some "Exporter Country ISO 2") ∧
    c4_cube.get_property "Exporter Country ISO 2" = none ∧
    c4_cube.get_property "ISO 2" = some c4_prop := by
  decide

def c6_level : Level :=
  { depth := 1, dimension := "D", hierarchy := "H", name := "L" }

def c6_cube : Cube :=
  { dimensions := [{ hierarchies := [{ dimension := "D", levels := [c6_level],
                                       name := "H" }], name := "D" }],
    measures := [],
    name := "c6" }

/-- C6 (failing-input evaluation): the cut loop emits
`params[level_name] = ",".join(cut.members)` — the member set is joined in
its iteration order (insertion order in this model; hash order in CPython)
WITHOUT sorting, and because the joined value is already a plain string it
is untouched by the final pass that sorts every list/set-valued parameter.
With members accumulated in the order `["b", "a"]` the parameter value is
`"b,a"`, not the sorted `"a,b"` the claim requires.  The second half of the
claim does hold: the level's name lands in `exclude` exactly when the cut
is exclusive (and the `exclude` list itself is sorted). -/
theorem claim_C6_cut_members_not_sorted :
    ((c6_cube.new_query).set_cut "L" ["b", "a"]).map final_params =
      some (.ok [("cube", "c6"), ("L", "b,a")]) ∧
    ((c6_cube.new_query).set_cut "L" ["b", "a"] (some true)).map final_params =
      some (.ok [("cube", "c6"), ("exclude", "L"), ("L", "b,a")]) ∧
    sortStrings ["b", "a"] = ["a", "b"] :=
  ⟨rfl, rfl, rfl⟩

/-- C8 (failing-input evaluation): `set_time` stores the pair when both
components are given and `(None, None)` otherwise, and the serializer's
`time` branch — `params["time"] = "{}.{}".join(*query.time),` — calls
`str.join` with two positional arguments, a `TypeError`, whenever both
components are set; so `get_url` crashes instead of emitting
`time=<precision>.<value>`, and a query with a partial time emits no `time`
parameter at all. -/
theorem claim_C8_time_serialization_crashes :
    ((c1w_cube.new_query).set_time (some "year") (some "2020")).time =
      (some "year", some "2020") ∧
    build_params ((c1w_cube.new_query).set_time (some "year") (some "2020")) =
      .error "TypeError: join() takes exactly one argument (2 given)" ∧
    ((c1w_cube.new_query).set_time (some "year") none).time = (none, none) ∧
    (final_params ((c1w_cube.new_query).set_time (some "year") none)).map
      (fun fps => lookupKV fps "time") = .ok none :=
  ⟨rfl, rfl, rfl, rfl⟩

/-- Serialization of every stored filter succeeds when the filter dict maps
to an ok list. -/
theorem mapM_serialize_ok {fs : List (String × QFilter)} {fl : List String}
    (h : fs.mapM (fun kv => kv.2.serialize) = .ok fl) :
    ∀ kv ∈ fs, ∃ s, kv.2.serialize = .ok s := by
  induction fs generalizing fl with
  | nil => intro kv hkv; cases hkv
  | cons kv2 rest ih =>
    rw [List.mapM_cons] at h
    intro kv hkv
    cases hs : kv2.2.serialize with
    | error e => rw [hs] at h; simp [Bind.bind, Except.bind] at h
    | ok s =>
      rw [hs] at h
      simp only [Bind.bind, Except.bind] at h
      cases hrest : rest.mapM (fun kv => kv.2.serialize) with
      | error e => rw [hrest] at h; simp [Except.bind] at h
      | ok fl2 =>
        rw [hrest] at h
        rcases List.mem_cons.mp hkv with he | hm
        · exact he ▸ ⟨s, hs⟩
        · exact ih hrest kv hm

/-- C10: serializing a Filter (whose `value` and `constraint1` slots are
set, as `set_filter` guarantees) succeeds exactly when the joint is unset
or the second constraint is present; a filter carrying a joint but no
second constraint raises `TypeError` from the `constraint2[0]` access
instead of emitting the primary constraint alone, which in turn makes the
whole URL build fail for any query holding such a filter. -/
theorem claim_C10_filter_serialize (f : QFilter)
    (hv : f.value ≠ none) (hc : f.constraint1 ≠ none) :
    ((∃ s, f.serialize = .ok s) ↔ (f.joint = none ∨ f.constraint2 ≠ none)) ∧
    (f.joint ≠ none → f.constraint2 = none →
      f.serialize = .error "TypeError: NoneType object is not subscriptable") ∧
    (∀ (q : Query), (∃ kv ∈ q.filters, kv.2.joint ≠ none ∧ kv.2.constraint2 = none) →
      ∀ ps, build_params q ≠ .ok ps) := by
  refine ⟨?_, ?_, ?_⟩
  · cases hval : f.value with
    | none => exact absurd hval hv
    | some v =>
      cases hc1 : f.constraint1 with
      | none => exact absurd hc1 hc
      | some c1 =>
        cases hj : f.joint with
        | none =>
          refine ⟨fun _ => Or.inl rfl, fun _ => ?_⟩
          cases v with
          | str s =>
            exact ⟨s ++ "." ++ c1.1.code ++ "." ++ intFmt c1.2,
              by simp [QFilter.serialize, QFilter.value_name, hval, hc1, hj]⟩
          | measure m =>
            exact ⟨m.name ++ "." ++ c1.1.code ++ "." ++ intFmt c1.2,
              by simp [QFilter.serialize, QFilter.value_name, hval, hc1, hj]⟩
        | some j =>
          cases hc2 : f.constraint2 with
          | none =>
            constructor
            · rintro ⟨s, hs⟩
              cases v <;>
                simp [QFilter.serialize, QFilter.value_name, hval, hc1, hj, hc2] at hs
            · rintro (h | h)
              · exact Option.noConfusion h
              · exact absurd rfl h
          | some c2 =>
            refine ⟨fun _ => Or.inr (by simp), fun _ => ?_⟩
            cases v with
            | str s =>
              exact ⟨s ++ "." ++ c1.1.code ++ "." ++ intFmt c1.2 ++ "." ++ j ++ "." ++
                  c2.1.code ++ "." ++ intFmt c2.2,
                by simp [QFilter.serialize, QFilter.value_name, hval, hc1, hj, hc2]⟩
            | measure m =>
              exact ⟨m.name ++ "." ++ c1.1.code ++ "." ++ intFmt c1.2 ++ "." ++ j ++ "." ++
                  c2.1.code ++ "." ++ intFmt c2.2,
                by simp [QFilter.serialize, QFilter.value_name, hval, hc1, hj, hc2]⟩
  · intro hj hc2
    cases hval : f.value with
    | none => exact absurd hval hv
    | some v =>
      cases hc1 : f.constraint1 with
      | none => exact absurd hc1 hc
      | some c1 =>
        cases hjv : f.joint with
        | none => exact absurd hjv hj
        | some j =>
          cases v <;>
            simp [QFilter.serialize, QFilter.value_name, hval, hc1, hjv, hc2]
  · rintro q ⟨kv, hkv, hj, hc2⟩ ps hok
    rcases build_params_ok_elim hok with ⟨c, dl, fl, ps1, ps2, -, -, hfl, -, -, -, -⟩
    rcases mapM_serialize_ok hfl kv hkv with ⟨s, hs⟩
    cases hval : kv.2.value with
    | none => simp [QFilter.serialize, QFilter.value_name, hval] at hs
    | some v =>
      cases hc1 : kv.2.constraint1 with
      | none =>
        cases v <;> simp [QFilter.serialize, QFilter.value_name, hval, hc1] at hs
      | some c1 =>
        cases hjv : kv.2.joint with
        | none => exact absurd hjv hj
        | some j =>
          cases v <;>
            simp [QFilter.serialize, QFilter.value_name, hval, hc1, hjv, hc2] at hs

/-- Witness for C10: a two-constraint filter serializes; the same filter
without its second constraint makes serialization raise. -/
theorem claim_C10_witness :
    (∃ s, ({ value := some (.str "Quantity"), constraint1 := some (.gt, 200),
             joint := some "and", constraint2 := some (.lte, 1000) } : QFilter).serialize =
        .ok s) ∧
    ({ value := some (.str "Quantity"), constraint1 := some (.gt, 200),
       joint := some "and" } : QFilter).serialize =
      .error "TypeError: NoneType object is not subscriptable" :=
  ⟨(claim_C10_filter_serialize _ (by simp) (by simp)).1.mpr (Or.inr (by simp)),
   (claim_C10_filter_serialize _ (by simp) (by simp)).2.1 (by simp) rfl⟩

theorem drill_lists_go (slots : List (String × Drilldown))
    (hl : ∀ kv ∈ slots, kv.2.level ≠ none) :
    ∀ acc : List String × List String,
      slots.foldlM drill_step acc =
      .ok (acc.1 ++ slots.filterMap (fun kv => kv.2.level.map get_unique_name_level),
           acc.2 ++ slots.flatMap (fun kv => kv.2.properties.map get_unique_name_prop)) := by
  induction slots with
  | nil => intro acc; simp [pure, Except.pure]
  | cons kv rest ih =>
    intro acc
    cases hlvl : kv.2.level with
    | none => exact absurd hlvl (hl kv (List.mem_cons_self _ _))
    | some lvl =>
      rw [List.foldlM_cons]
      have hrest : ∀ kv2 ∈ rest, kv2.2.level ≠ none :=
        fun kv2 hm => hl kv2 (List.mem_cons_of_mem _ hm)
      simp only [drill_step, hlvl, Bind.bind, Except.bind]
      rw [ih hrest]
      simp [List.filterMap_cons, hlvl, List.append_assoc]

/-- The two lists the drilldown loop accumulates, when every slot's level
is set: the slot levels' unique names in slot order, and all slot
properties' unique names in slot order. -/
theorem drill_lists_eq {slots : List (String × Drilldown)}
    (hl : ∀ kv ∈ slots, kv.2.level ≠ none) :
    drill_lists slots = .ok
      (slots.filterMap (fun kv => kv.2.level.map get_unique_name_level),
       slots.flatMap (fun kv => kv.2.properties.map get_unique_name_prop)) := by
  unfold drill_lists
  simpa using drill_lists_go slots hl ([], [])

/-- C5: for every query with at least one drilldown (each slot's level set,
as `set_drilldown` guarantees, and no cut masking the two fixed parameter
keys), the `drilldowns` parameter of the serialized URL is the sorted
comma-join of each slot level's effective name (`unique_name` when present
and non-empty, else `name`), and the `properties` parameter is the sorted
comma-join of the effective names of all properties attached to any slot
(omitted when no slot carries properties). -/
theorem claim_C5_drilldowns_properties (q : Query) (fps : List (String × String))
    (h : final_params q = .ok fps)
    (hne : q.drilldowns ≠ [])
    (hl : ∀ kv ∈ q.drilldowns, kv.2.level ≠ none)
    (hck1 : cuts_avoid q.cuts "drilldowns") (hck2 : cuts_avoid q.cuts "properties") :
    drill_lists q.drilldowns = .ok
      (q.drilldowns.filterMap (fun kv => kv.2.level.map get_unique_name_level),
       q.drilldowns.flatMap (fun kv => kv.2.properties.map get_unique_name_prop)) ∧
    lookupKV fps "drilldowns" = some (String.intercalate "," (sortStrings
      (q.drilldowns.filterMap (fun kv => kv.2.level.map get_unique_name_level)))) ∧
    lookupKV fps "properties" =
      (if q.drilldowns.flatMap (fun kv => kv.2.properties.map get_unique_name_prop) = []
       then none
       else some (String.intercalate "," (sortStrings
         (q.drilldowns.flatMap (fun kv => kv.2.properties.map get_unique_name_prop))))) := by
  have hde := drill_lists_eq hl
  refine ⟨hde, ?_, ?_⟩
  · have hbase : ∀ ps, build_params q = .ok ps →
        lookupKV ps "drilldowns" = some (.l
          (q.drilldowns.filterMap (fun kv => kv.2.level.map get_unique_name_level))) := by
      intro ps hb
      rcases build_lookup_drilldowns hb hck1 with ⟨dl, hdl, hlk⟩
      rw [hde] at hdl
      rw [hlk, ← Except.ok.inj hdl]
    rw [final_lookup_coll h hbase]
    have hdne : q.drilldowns.filterMap (fun kv => kv.2.level.map get_unique_name_level) ≠ [] := by
      cases hq : q.drilldowns with
      | nil => exact absurd hq hne
      | cons kv rest =>
        cases hlvl : kv.2.level with
        | none => exact absurd hlvl (hl kv (by simp [hq]))
        | some lvl => simp [List.filterMap_cons, hlvl]
    rw [if_neg hdne]
  · have hbase : ∀ ps, build_params q = .ok ps →
        lookupKV ps "properties" = some (.l
          (q.drilldowns.flatMap (fun kv => kv.2.properties.map get_unique_name_prop))) := by
      intro ps hb
      rcases build_lookup_properties hb hck2 with ⟨dl, hdl, hlk⟩
      rw [hde] at hdl
      rw [hlk, ← Except.ok.inj hdl]
    rw [final_lookup_coll h hbase]

def c5w_query : Query :=
  { cube := some c4_cube,
    drilldowns := [("Exporter Country", { level := some c4_level, properties := [c4_prop] })] }

/-- Witness for C5: one drilldown on a unique-named level with one attached
unique-named property serializes into `drilldowns` / `properties` values
holding the effective names. -/
theorem claim_C5_witness :
    final_params c5w_query = .ok
      [("cube", "trade"), ("drilldowns", "Exporter Country"),
       ("properties", "Exporter Country ISO 2")] ∧
    lookupKV [("cube", "trade"), ("drilldowns", "Exporter Country"),
       ("properties", "Exporter Country ISO 2")] "drilldowns" = some "Exporter Country" ∧
    lookupKV [("cube", "trade"), ("drilldowns", "Exporter Country"),
       ("properties", "Exporter Country ISO 2")] "properties" =
      some "Exporter Country ISO 2" := by
  have hmain := claim_C5_drilldowns_properties c5w_query
    [("cube", "trade"), ("drilldowns", "Exporter Country"),
     ("properties", "Exporter Country ISO 2")]
    rfl (by simp [c5w_query]) (by simp [c5w_query])
    (fun kv hkv => absurd hkv (List.not_mem_nil kv))
    (fun kv hkv => absurd hkv (List.not_mem_nil kv))
  exact ⟨rfl, hmain.2.1.trans (by rfl), hmain.2.2.trans (by rfl)⟩

/-- C7: the serialized URL contains an option parameter `o` exactly when
`o` is one of `debug`, `exclude_default_members`, `parents`, `sparse` and
the query's options mapping holds `True` for it, in which case its value is
the literal string `"true"`; absent or false options are omitted entirely
(so `"false"` is never emitted), and the options section of the serializer
never touches any parameter key outside those four. -/
theorem claim_C7_boolean_options (q : Query) (fps : List (String × String))
    (h : final_params q = .ok fps) :
    (∀ o ∈ option_keys, cuts_avoid q.cuts o →
      lookupKV fps o = if lookupKV q.options o = some true then some "true" else none) ∧
    (∀ (ps : List (String × PVal)) (opts : List (String × Bool)) (k : String),
      k ∉ option_keys → lookupKV (apply_options ps opts) k = lookupKV ps k) := by
  constructor
  · intro o ho hck
    rcases final_params_ok_elim h with ⟨ps, hb, rfl⟩
    have hnd := nodupKeys_build hb
    rcases build_params_ok_elim hb with ⟨c, dl, fl, ps1, ps2, hcube, hdl, hfl, hcut, ht, hcalc, hps⟩
    subst hps
    rw [lookupKV_finalize hnd o, apply_options_lookup_self _ _ ho]
    have hpre : lookupKV ps2 o = none := by
      have h1 := calc_fold_lookup o hcalc
      simp only [option_keys, List.mem_cons, List.not_mem_nil, or_false] at ho
      rcases ho with rfl | rfl | rfl | rfl <;>
      · rw [lastSuch_none_of_false _
            (fun c2 _ => writesKey_false c2 (by decide) (by decide) (by decide))] at h1
        dsimp only [] at h1
        rw [h1, lookupKV_sort_ps _ _ (by decide), lookupKV_limit_ps _ _ (by decide),
            cut_fold_lookup_ne hcut (by decide) hck, lookupKV_locale_ps _ _ (by decide)]
        simp [base_ps, lookupKV]
    rw [hpre]
    by_cases hopt : lookupKV q.options o = some true
    · simp [hopt, is_valid_value, render]
    · simp [hopt]
  · exact fun ps opts k hk => apply_options_lookup_ne ps opts hk

def c7w_query : Query :=
  { cube := some c1w_cube, options := [("debug", true), ("parents", false)] }

/-- Witness for C7: with `debug` set true and `parents` set false, the URL
carries `debug=true` and no `parents` parameter. -/
theorem claim_C7_witness :
    lookupKV [("cube", "trade"), ("debug", "true")] "debug" = some "true" ∧
    lookupKV [("cube", "trade"), ("debug", "true")] "parents" = none := by
  have hmain := (claim_C7_boolean_options c7w_query [("cube", "trade"), ("debug", "true")] rfl).1
  exact ⟨(hmain "debug" (by decide) (fun kv hkv => absurd hkv (List.not_mem_nil kv))).trans
      (by rfl),
    (hmain "parents" (by decide) (fun kv hkv => absurd hkv (List.not_mem_nil kv))).trans
      (by rfl)⟩

theorem ne_empty_of_length_pos {s : String} (h : 0 < s.length) : s ≠ "" := by
  intro he
  rw [he] at h
  simp at h

theorem append_comma_ne_empty (a b : String) : a ++ "," ++ b ≠ "" := by
  refine ne_empty_of_length_pos ?_
  have : ("," : String).length = 1 := rfl
  simp [String.length_append]
  omega

/-- C9: when the calculation list holds several calculations of the same
kind, the serialized URL reflects only the last occurrence of that kind,
and the emitted formats are: `growth` as
`"<period-effective-name>,<value-measure-name>"`, `rca` as
`"<location>,<category>,<value>"` with effective names for location and
category and the measure name for value, and `top` as
`"<amount>,<category-effective-name>,<value-name>,<order>"`.  (A kind with
no occurrence emits no parameter.) -/
theorem claim_C9_calculations_last_wins (q : Query) (fps : List (String × String))
    (h : final_params q = .ok fps)
    (hck1 : cuts_avoid q.cuts "growth") (hck2 : cuts_avoid q.cuts "rca")
    (hck3 : cuts_avoid q.cuts "top") :
    (∀ p v, lastSuch (writesKey "growth") q.calculations = some (.growth p v) →
      lookupKV fps "growth" = some (get_unique_name_level p ++ "," ++ v.name)) ∧
    (∀ l cat v, lastSuch (writesKey "rca") q.calculations = some (.rca l cat v) →
      lookupKV fps "rca" = some (get_unique_name_level l ++ "," ++
        get_unique_name_level cat ++ "," ++ v.name)) ∧
    (∀ a cat m o, lastSuch (writesKey "top") q.calculations = some (.topk a cat (.measure m) o) →
      lookupKV fps "top" = some (intFmt a ++ "," ++ get_unique_name_level cat ++ "," ++
        m.name ++ "," ++ o)) ∧
    (lastSuch (writesKey "growth") q.calculations = none → lookupKV fps "growth" = none) ∧
    (lastSuch (writesKey "rca") q.calculations = none → lookupKV fps "rca" = none) ∧
    (lastSuch (writesKey "top") q.calculations = none → lookupKV fps "top" = none) := by
  rcases final_params_ok_elim h with ⟨ps, hb, rfl⟩
  have hnd := nodupKeys_build hb
  rcases build_params_ok_elim hb with ⟨c, dl, fl, ps1, ps2, hcube, hdl, hfl, hcut, ht, hcalc, hps⟩
  subst hps
  have hgrowth := calc_fold_lookup "growth" hcalc
  have hrca := calc_fold_lookup "rca" hcalc
  have htop := calc_fold_lookup "top" hcalc
  have hbases : ∀ K : String, K = "growth" ∨ K = "rca" ∨ K = "top" → cuts_avoid q.cuts K →
      lookupKV (sort_ps q (limit_ps q ps1)) K = none := by
    rintro K (rfl | rfl | rfl) hck <;>
    · rw [lookupKV_sort_ps _ _ (by decide), lookupKV_limit_ps _ _ (by decide),
          cut_fold_lookup_ne hcut (by decide) hck, lookupKV_locale_ps _ _ (by decide)]
      simp [base_ps, lookupKV]
  refine ⟨?_, ?_, ?_, ?_, ?_, ?_⟩
  · intro p v hl
    rw [hl] at hgrowth
    dsimp only [calcKey, Option.map] at hgrowth
    rw [lookupKV_finalize hnd _, apply_options_lookup_ne _ _ (by decide), hgrowth]
    simp [is_valid_value, render, growth_fmt, append_comma_ne_empty]
  · intro l cat v hl
    rw [hl] at hrca
    dsimp only [calcKey, Option.map] at hrca
    rw [lookupKV_finalize hnd _, apply_options_lookup_ne _ _ (by decide), hrca]
    have : get_unique_name_level l ++ "," ++ get_unique_name_level cat ++ "," ++ v.name ≠ "" := by
      refine ne_empty_of_length_pos ?_
      have : ("," : String).length = 1 := rfl
      simp [String.length_append]
      omega
    simp [is_valid_value, render, rca_fmt, this]
  · intro a cat m o hl
    rw [hl] at htop
    dsimp only [calcKey, Option.map] at htop
    rw [lookupKV_finalize hnd _, apply_options_lookup_ne _ _ (by decide), htop]
    have : intFmt a ++ "," ++ get_unique_name_level cat ++ "," ++ m.name ++ "," ++ o ≠ "" := by
      refine ne_empty_of_length_pos ?_
      have : ("," : String).length = 1 := rfl
      simp [String.length_append]
      omega
    simp [is_valid_value, render, top_fmt, this]
  · intro hl
    rw [hl] at hgrowth
    dsimp only [] at hgrowth
    rw [lookupKV_finalize hnd _, apply_options_lookup_ne _ _ (by decide), hgrowth,
        hbases "growth" (Or.inl rfl) hck1]
  · intro hl
    rw [hl] at hrca
    dsimp only [] at hrca
    rw [lookupKV_finalize hnd _, apply_options_lookup_ne _ _ (by decide), hrca,
        hbases "rca" (Or.inr (Or.inl rfl)) hck2]
  · intro hl
    rw [hl] at htop
    dsimp only [] at htop
    rw [lookupKV_finalize hnd _, apply_options_lookup_ne _ _ (by decide), htop,
        hbases "top" (Or.inr (Or.inr rfl)) hck3]

def c9w_m2 : Measure := { aggregator_name := "sum", name := "Quantity" }

def c9w_query : Query :=
  { cube := some c1w_cube,
    calculations := [.growth c1w_level c1w_measure, .growth c1w_level c9w_m2] }

/-- Witness for C9: two growth calculations — the URL carries only the
second one's parameters. -/
theorem claim_C9_witness :
    lookupKV [("cube", "trade"), ("growth", "Year,Quantity")] "growth" = some "Year,Quantity" :=
  ((claim_C9_calculations_last_wins c9w_query
      [("cube", "trade"), ("growth", "Year,Quantity")] rfl
      (fun kv hkv => absurd hkv (List.not_mem_nil kv))
      (fun kv hkv => absurd hkv (List.not_mem_nil kv))
      (fun kv hkv => absurd hkv (List.not_mem_nil kv))).1
    c1w_level c9w_m2 rfl).trans (by rfl)

theorem coll_value_congr {l1 l2 : List String} (h : l1.Perm l2) :
    (if l1 = [] then none else some (String.intercalate "," (sortStrings l1))) =
    (if l2 = [] then none else some (String.intercalate "," (sortStrings l2))) := by
  by_cases he : l1 = []
  · subst he
    rw [if_pos rfl, if_pos (h.symm.eq_nil)]
  · have hne2 : l2 ≠ [] := fun h2 => he (List.Perm.eq_nil (h2 ▸ h))
    rw [if_neg he, if_neg hne2, sortStrings_eq_of_perm h]

/-- C2: every multi-valued parameter of the logiclayer URL (`measures`,
`drilldowns`, `properties`, `filters`) is comma-joined in lexicographically
sorted order, so two queries whose accumulated state agrees up to insertion
order (permutation-equal measure-name sets, drilldown-level lists,
property lists and serialized-filter lists) serialize those four
parameters to identical values, regardless of the order in which the
setter calls inserted them.  (As everywhere, cut keys are assumed not to
mask the four fixed parameter names.) -/
theorem claim_C2_sorted_order_independent
    (q1 q2 : Query) (fps1 fps2 : List (String × String))
    (dl1 dl2 : List String × List String) (fl1 fl2 : List String)
    (h1 : final_params q1 = .ok fps1) (h2 : final_params q2 = .ok fps2)
    (hdl1 : drill_lists q1.drilldowns = .ok dl1) (hdl2 : drill_lists q2.drilldowns = .ok dl2)
    (hfl1 : q1.filters.mapM (fun kv => kv.2.serialize) = .ok fl1)
    (hfl2 : q2.filters.mapM (fun kv => kv.2.serialize) = .ok fl2)
    (hck : ∀ k ∈ (["measures", "drilldowns", "properties", "filters"] : List String),
      cuts_avoid q1.cuts k ∧ cuts_avoid q2.cuts k)
    (hm : (measure_names q1.measures).Perm (measure_names q2.measures))
    (hd : dl1.1.Perm dl2.1) (hp : dl1.2.Perm dl2.2) (hf : fl1.Perm fl2) :
    (lookupKV fps1 "measures" =
      if measure_names q1.measures = [] then none
      else some (String.intercalate "," (sortStrings (measure_names q1.measures)))) ∧
    (lookupKV fps1 "drilldowns" =
      if dl1.1 = [] then none else some (String.intercalate "," (sortStrings dl1.1))) ∧
    (lookupKV fps1 "properties" =
      if dl1.2 = [] then none else some (String.intercalate "," (sortStrings dl1.2))) ∧
    (lookupKV fps1 "filters" =
      if fl1 = [] then none else some (String.intercalate "," (sortStrings fl1))) ∧
    lookupKV fps1 "measures" = lookupKV fps2 "measures" ∧
    lookupKV fps1 "drilldowns" = lookupKV fps2 "drilldowns" ∧
    lookupKV fps1 "properties" = lookupKV fps2 "properties" ∧
    lookupKV fps1 "filters" = lookupKV fps2 "filters" := by
  have cm1 : lookupKV fps1 "measures" =
      if measure_names q1.measures = [] then none
      else some (String.intercalate "," (sortStrings (measure_names q1.measures))) :=
    final_lookup_coll h1 (fun ps hb => build_lookup_measures hb (hck "measures" (by decide)).1)
  have cm2 : lookupKV fps2 "measures" =
      if measure_names q2.measures = [] then none
      else some (String.intercalate "," (sortStrings (measure_names q2.measures))) :=
    final_lookup_coll h2 (fun ps hb => build_lookup_measures hb (hck "measures" (by decide)).2)
  have cd1 : lookupKV fps1 "drilldowns" =
      if dl1.1 = [] then none else some (String.intercalate "," (sortStrings dl1.1)) := by
    refine final_lookup_coll h1 (fun ps hb => ?_)
    rcases build_lookup_drilldowns hb (hck "drilldowns" (by decide)).1 with ⟨dl, hdl, hlk⟩
    rw [hdl1] at hdl
    cases (Except.ok.inj hdl)
    exact hlk
  have cd2 : lookupKV fps2 "drilldowns" =
      if dl2.1 = [] then none else some (String.intercalate "," (sortStrings dl2.1)) := by
    refine final_lookup_coll h2 (fun ps hb => ?_)
    rcases build_lookup_drilldowns hb (hck "drilldowns" (by decide)).2 with ⟨dl, hdl, hlk⟩
    rw [hdl2] at hdl
    cases (Except.ok.inj hdl)
    exact hlk
  have cp1 : lookupKV fps1 "properties" =
      if dl1.2 = [] then none else some (String.intercalate "," (sortStrings dl1.2)) := by
    refine final_lookup_coll h1 (fun ps hb => ?_)
    rcases build_lookup_properties hb (hck "properties" (by decide)).1 with ⟨dl, hdl, hlk⟩
    rw [hdl1] at hdl
    cases (Except.ok.inj hdl)
    exact hlk
  have cp2 : lookupKV fps2 "properties" =
      if dl2.2 = [] then none else some (String.intercalate "," (sortStrings dl2.2)) := by
    refine final_lookup_coll h2 (fun ps hb => ?_)
    rcases build_lookup_properties hb (hck "properties" (by decide)).2 with ⟨dl, hdl, hlk⟩
    rw [hdl2] at hdl
    cases (Except.ok.inj hdl)
    exact hlk
  have cf1 : lookupKV fps1 "filters" =
      if fl1 = [] then none else some (String.intercalate "," (sortStrings fl1)) := by
    refine final_lookup_coll h1 (fun ps hb => ?_)
    rcases build_lookup_filters hb (hck "filters" (by decide)).1 with ⟨fl, hfl, hlk⟩
    rw [hfl1] at hfl
    cases (Except.ok.inj hfl)
    exact hlk
  have cf2 : lookupKV fps2 "filters" =
      if fl2 = [] then none else some (String.intercalate "," (sortStrings fl2)) := by
    refine final_lookup_coll h2 (fun ps hb => ?_)
    rcases build_lookup_filters hb (hck "filters" (by decide)).2 with ⟨fl, hfl, hlk⟩
    rw [hfl2] at hfl
    cases (Except.ok.inj hfl)
    exact hlk
  refine ⟨cm1, cd1, cp1, cf1, ?_, ?_, ?_, ?_⟩
  · rw [cm1, cm2]; exact coll_value_congr hm
  · rw [cd1, cd2]; exact coll_value_congr hd
  · rw [cp1, cp2]; exact coll_value_congr hp
  · rw [cf1, cf2]; exact coll_value_congr hf

def c2w_mA : Measure := { aggregator_name := "sum", name := "A" }

def c2w_mB : Measure := { aggregator_name := "sum", name := "B" }

def c2w_l1 : Level := { depth := 1, dimension := "D1", hierarchy := "D1", name := "L1" }

def c2w_l2 : Level := { depth := 1, dimension := "D2", hierarchy := "D2", name := "L2" }

def c2w_cube : Cube :=
  { dimensions :=
      [{ hierarchies := [{ dimension := "D1", levels := [c2w_l1], name := "D1" }], name := "D1" },
       { hierarchies := [{ dimension := "D2", levels := [c2w_l2], name := "D2" }], name := "D2" }],
    measures := [c2w_mA, c2w_mB],
    name := "w2" }

def c2w_q1 : Query :=
  { cube := some c2w_cube, measures := [c2w_mA, c2w_mB],
    drilldowns := [("D1", { level := some c2w_l1 }), ("D2", { level := some c2w_l2 })] }

def c2w_q2 : Query :=
  { cube := some c2w_cube, measures := [c2w_mB, c2w_mA],
    drilldowns := [("D2", { level := some c2w_l2 }), ("D1", { level := some c2w_l1 })] }

/-- Witness for C2: the same measures and drilldowns inserted in opposite
orders serialize to the same sorted parameter values. -/
theorem claim_C2_witness :
    lookupKV [("cube", "w2"), ("measures", "A,B"), ("drilldowns", "L1,L2")] "measures" =
      some "A,B" ∧
    lookupKV [("cube", "w2"), ("measures", "A,B"), ("drilldowns", "L1,L2")] "drilldowns" =
      lookupKV [("cube", "w2"), ("measures", "A,B"), ("drilldowns", "L1,L2")] "drilldowns" := by
  have hvac : ∀ k ∈ (["measures", "drilldowns", "properties", "filters"] : List String),
      cuts_avoid c2w_q1.cuts k ∧ cuts_avoid c2w_q2.cuts k :=
    fun k _ => ⟨fun kv hkv => absurd hkv (List.not_mem_nil kv),
                fun kv hkv => absurd hkv (List.not_mem_nil kv)⟩
  have hmain := claim_C2_sorted_order_independent c2w_q1 c2w_q2
    [("cube", "w2"), ("measures", "A,B"), ("drilldowns", "L1,L2")]
    [("cube", "w2"), ("measures", "A,B"), ("drilldowns", "L1,L2")]
    (["L1", "L2"], []) (["L2", "L1"], []) [] []
    rfl rfl rfl rfl rfl rfl hvac (by decide) (by decide) (by decide) (by decide)
  exact ⟨hmain.1.trans (by rfl), hmain.2.2.2.2.2.1.trans hmain.2.2.2.2.2.1.symm⟩

/-- An operation of the kind claim C3 quantifies over: a `set_cut` or a
`set_drilldown` call with its arguments. -/
inductive QOp
  | cut (level_name : String) (members : List String)
      (is_exclusive : Option Bool) (is_for_match : Option Bool)
  | drill (level_name : String)
  deriving DecidableEq

def QOp.isCut : QOp → Bool
  | .cut _ _ _ _ => true
  | .drill _ => false

def applyOp (q : Query) : QOp → Option Query
  | .cut n members e f => q.set_cut n members e f
  | .drill n => q.set_drilldown n

def applyOps (q : Query) : List QOp → Option Query
  | [] => some q
  | op :: ops => (applyOp q op).bind (fun q2 => applyOps q2 ops)

/-- The level an operation resolves against the bound cube. -/
def opLevel (c : Cube) : QOp → Option Level
  | .cut n _ _ _ => c.get_level n
  | .drill n => c.get_level n

def QOp.isDrill : QOp → Bool
  | .cut _ _ _ _ => false
  | .drill _ => true

theorem set_cut_spec {q : Query} {c : Cube} {lvl : Level} {n : String}
    {members : List String} {e f : Option Bool} {q' : Query}
    (hcube : q.cube = some c) (hlvl : c.get_level n = some lvl)
    (h : q.set_cut n members e f = some q') :
    q'.cube = q.cube ∧
    q'.cuts = updateKV q.cuts lvl.dimension (cut_touch lvl members e f) {} ∧
    q'.drilldowns = q.drilldowns := by
  rw [Query.set_cut, hcube] at h
  simp only [Option.bind_eq_bind, Option.some_bind, hlvl] at h
  cases (Option.some.inj h)
  exact ⟨hcube.symm, rfl, rfl⟩

theorem set_drilldown_spec {q : Query} {c : Cube} {lvl : Level} {n : String} {q' : Query}
    (hcube : q.cube = some c) (hlvl : c.get_level n = some lvl)
    (h : q.set_drilldown n = some q') :
    q'.cube = q.cube ∧
    q'.cuts = q.cuts ∧
    q'.drilldowns = updateKV q.drilldowns lvl.dimension (fun drill => { drill with level := some lvl }) {} := by
  rw [Query.set_drilldown, hcube] at h
  simp only [Option.bind_eq_bind, Option.some_bind, hlvl] at h
  cases (Option.some.inj h)
  exact ⟨hcube.symm, rfl, rfl⟩

theorem applyOps_count (d : String) :
    ∀ (ops : List QOp) (q q' : Query) (c : Cube),
      q.cube = some c → applyOps q ops = some q' →
      (∀ op ∈ ops, ∃ lvl, opLevel c op = some lvl ∧ lvl.dimension = d) →
      q'.cube = some c ∧
      countKey q'.cuts d = max (countKey q.cuts d) (if ops.any QOp.isCut then 1 else 0) ∧
      countKey q'.drilldowns d =
        max (countKey q.drilldowns d) (if ops.any QOp.isDrill then 1 else 0) ∧
      ((q.cuts.map Prod.fst).Nodup → (q'.cuts.map Prod.fst).Nodup) ∧
      ((q.drilldowns.map Prod.fst).Nodup → (q'.drilldowns.map Prod.fst).Nodup) := by
  intro ops
  induction ops with
  | nil =>
    intro q q' c hcube h _
    cases (Option.some.inj h)
    simp [hcube]
  | cons op ops ih =>
    intro q q' c hcube h hops
    rcases Option.bind_eq_some.mp h with ⟨q2, hstep, hrest⟩
    rcases hops op (List.mem_cons_self _ _) with ⟨lvl, hlvl, hdim⟩
    have hopsrest : ∀ op2 ∈ ops, ∃ lvl, opLevel c op2 = some lvl ∧ lvl.dimension = d :=
      fun op2 hm => hops op2 (List.mem_cons_of_mem _ hm)
    cases op with
    | cut n members e f =>
      rcases set_cut_spec hcube (hlvl : c.get_level n = some lvl) hstep with ⟨hcb, hcuts2, hdd2⟩
      have hcube2 : q2.cube = some c := hcb.trans hcube
      have hcuts2' : q2.cuts = updateKV q.cuts d (cut_touch lvl members e f) {} := by
        rw [hcuts2, hdim]
      rcases ih q2 q' c hcube2 hrest hopsrest with ⟨hc, hcount, hdcount, hnd1, hnd2⟩
      refine ⟨hc, ?_, ?_, ?_, ?_⟩
      · rw [hcount, hcuts2', countKey_updateKV_self]
        have hcons : ((QOp.cut n members e f :: ops).any QOp.isCut) = true := by
          simp [QOp.isCut]
        rw [if_pos hcons]
        by_cases hany : ops.any QOp.isCut
        · rw [if_pos hany]; omega
        · rw [if_neg hany]; omega
      · rw [hdcount, hdd2]
        simp only [List.any_cons, QOp.isDrill, Bool.false_or]
      · intro hnd
        refine hnd1 ?_
        rw [hcuts2']
        exact nodupKeys_updateKV _ _ _ hnd
      · intro hnd
        refine hnd2 ?_
        rw [hdd2]
        exact hnd
    | drill n =>
      rcases set_drilldown_spec hcube (hlvl : c.get_level n = some lvl) hstep with
        ⟨hcb, hcuts2, hdd2⟩
      have hcube2 : q2.cube = some c := hcb.trans hcube
      have hdd2' : q2.drilldowns =
          updateKV q.drilldowns d (fun drill => { drill with level := some lvl }) {} := by
        rw [hdd2, hdim]
      rcases ih q2 q' c hcube2 hrest hopsrest with ⟨hc, hcount, hdcount, hnd1, hnd2⟩
      refine ⟨hc, ?_, ?_, ?_, ?_⟩
      · rw [hcount, hcuts2]
        simp only [List.any_cons, QOp.isCut, Bool.false_or]
      · rw [hdcount, hdd2', countKey_updateKV_self]
        have hcons : ((QOp.drill n :: ops).any QOp.isDrill) = true := by
          simp [QOp.isDrill]
        rw [if_pos hcons]
        by_cases hany : ops.any QOp.isDrill
        · rw [if_pos hany]; omega
        · rw [if_neg hany]; omega
      · intro hnd
        refine hnd1 ?_
        rw [hcuts2]
        exact hnd
      · intro hnd
        refine hnd2 ?_
        rw [hdd2']
        exact nodupKeys_updateKV _ _ _ hnd

theorem cut_touch_eq (lvl : Level) (mem : List String) (e f : Option Bool) (cut : Cut) :
    cut_touch lvl mem e f cut =
      { level := some lvl,
        members := unionMembers cut.members mem,
        is_exclusive := match e with | some b => b | none => cut.is_exclusive,
        is_for_match := match f with | some b => b | none => cut.is_for_match } := by
  by_cases h : mem.length > 0
  · cases e <;> cases f <;> simp [cut_touch, h]
  · have hme : mem = [] := List.length_eq_zero.mp (by omega)
    subst hme
    cases e <;> cases f <;> simp [cut_touch, unionMembers]

theorem cut_touch_touch (lvl1 lvl2 : Level) (mem1 mem2 : List String)
    (e1 f1 : Option Bool) (cut : Cut) :
    cut_touch lvl2 mem2 none none (cut_touch lvl1 mem1 e1 f1 cut) =
      { level := some lvl2,
        members := unionMembers (unionMembers cut.members mem1) mem2,
        is_exclusive := match e1 with | some b => b | none => cut.is_exclusive,
        is_for_match := match f1 with | some b => b | none => cut.is_for_match } := by
  rw [cut_touch_eq, cut_touch_eq]

/-- C3: for any run of `set_cut` / `set_drilldown` calls on levels of one
dimension `d` — starting from any query whose cut and drilldown dicts have
the (always maintained) unique keys — the resulting query holds at most
one Cut and at most one Drilldown entry for `d`, exactly one Cut (one
Drilldown) as soon as the run contains a `set_cut` (`set_drilldown`); a
repeated `set_cut` on the same dimension rebinds the stored level, unions
the member sets across calls, and leaves `is_exclusive` / `is_for_match`
unchanged for every omitted flag argument; a repeated `set_drilldown`
rebinds the level while keeping the slot's accumulated properties and
caption. -/
theorem claim_C3_cut_drilldown_per_dimension :
    (∀ (c : Cube) (q q' : Query) (ops : List QOp) (d : String),
      q.cube = some c →
      (∀ op ∈ ops, ∃ lvl, opLevel c op = some lvl ∧ lvl.dimension = d) →
      applyOps q ops = some q' →
      (q.cuts.map Prod.fst).Nodup → (q.drilldowns.map Prod.fst).Nodup →
      countKey q'.cuts d ≤ 1 ∧ countKey q'.drilldowns d ≤ 1 ∧
      (ops.any QOp.isCut = true → countKey q'.cuts d = 1) ∧
      (ops.any QOp.isDrill = true → countKey q'.drilldowns d = 1)) ∧
    (∀ (c : Cube) (q q1 q2 : Query) (n1 n2 : String) (mem1 mem2 : List String)
        (e1 f1 : Option Bool) (lvl1 lvl2 : Level),
      q.cube = some c →
      c.get_level n1 = some lvl1 → c.get_level n2 = some lvl2 →
      lvl2.dimension = lvl1.dimension →
      q.set_cut n1 mem1 e1 f1 = some q1 →
      q1.set_cut n2 mem2 none none = some q2 →
      lookupKV q2.cuts lvl1.dimension = some
        { level := some lvl2,
          members := unionMembers (unionMembers
            ((lookupKV q.cuts lvl1.dimension).getD {}).members mem1) mem2,
          is_exclusive := match e1 with
            | some b => b
            | none => ((lookupKV q.cuts lvl1.dimension).getD {}).is_exclusive,
          is_for_match := match f1 with
            | some b => b
            | none => ((lookupKV q.cuts lvl1.dimension).getD {}).is_for_match }) ∧
    (∀ (c : Cube) (q q1 q2 : Query) (n1 n2 : String) (lvl1 lvl2 : Level),
      q.cube = some c →
      c.get_level n1 = some lvl1 → c.get_level n2 = some lvl2 →
      lvl2.dimension = lvl1.dimension →
      q.set_drilldown n1 = some q1 → q1.set_drilldown n2 = some q2 →
      lookupKV q2.drilldowns lvl1.dimension = some
        { level := some lvl2,
          properties := ((lookupKV q.drilldowns lvl1.dimension).getD {}).properties,
          caption := ((lookupKV q.drilldowns lvl1.dimension).getD {}).caption }) := by
  refine ⟨?_, ?_, ?_⟩
  · intro c q q' ops d hcube hops happly hnd1 hnd2
    rcases applyOps_count d ops q q' c hcube happly hops with ⟨-, hcount, hdcount, hq1, hq2⟩
    have hle1 : countKey q.cuts d ≤ 1 := List.nodup_iff_count_le_one.mp hnd1 d
    have hle2 : countKey q.drilldowns d ≤ 1 := List.nodup_iff_count_le_one.mp hnd2 d
    refine ⟨?_, ?_, ?_, ?_⟩
    · rw [hcount]; split_ifs <;> omega
    · rw [hdcount]; split_ifs <;> omega
    · intro hany; rw [hcount, if_pos hany]; omega
    · intro hany; rw [hdcount, if_pos hany]; omega
  · intro c q q1 q2 n1 n2 mem1 mem2 e1 f1 lvl1 lvl2 hcube hn1 hn2 hdim h1 h2
    rcases set_cut_spec hcube hn1 h1 with ⟨hcb1, hcuts1, -⟩
    rcases set_cut_spec (hcb1.trans hcube) hn2 h2 with ⟨-, hcuts2, -⟩
    rw [hcuts2, hdim, lookupKV_updateKV_self, hcuts1, lookupKV_updateKV_self]
    simp only [Option.getD_some]
    rw [cut_touch_touch]
  · intro c q q1 q2 n1 n2 lvl1 lvl2 hcube hn1 hn2 hdim h1 h2
    rcases set_drilldown_spec hcube hn1 h1 with ⟨hcb1, -, hdd1⟩
    rcases set_drilldown_spec (hcb1.trans hcube) hn2 h2 with ⟨-, -, hdd2⟩
    rw [hdd2, hdim, lookupKV_updateKV_self, hdd1, lookupKV_updateKV_self]
    simp only [Option.getD_some]

def c3w_l1 : Level := { depth := 1, dimension := "D", hierarchy := "H", name := "L1" }

def c3w_l2 : Level := { depth := 2, dimension := "D", hierarchy := "H", name := "L2" }

def c3w_cube : Cube :=
  { dimensions := [{ hierarchies := [{ dimension := "D", levels := [c3w_l1, c3w_l2],
                                       name := "H" }], name := "D" }],
    measures := [],
    name := "c3" }

def c3w_q1 : Query :=
  { cube := some c3w_cube,
    cuts := [("D", { level := some c3w_l1, members := ["a"], is_exclusive := true })] }

def c3w_q2 : Query :=
  { cube := some c3w_cube,
    cuts := [("D", { level := some c3w_l2, members := ["a", "b"], is_exclusive := true })] }

/-- Witness for C3: cutting `L1` (members `a`, exclusive) and then `L2`
(members `b`, flags omitted) on the same dimension leaves one entry: level
`L2`, members `a,b` unioned, exclusivity kept from the first call. -/
theorem claim_C3_witness :
    lookupKV c3w_q2.cuts "D" = some
      { level := some c3w_l2, members := ["a", "b"],
        is_exclusive := true, is_for_match := false } := by
  have h := (claim_C3_cut_drilldown_per_dimension).2.1 c3w_cube (c3w_cube.new_query)
    c3w_q1 c3w_q2 "L1" "L2" ["a"] ["b"] (some true) none c3w_l1 c3w_l2
    rfl rfl rfl rfl (by rfl) (by rfl)
  exact h.trans (by rfl)
